import Mathlib

/-!
Shallow embedding of `rustc_pattern_analysis/src/cx.rs` (exhaustiveness
checker front-end: constructor domain, pattern lowering, witness hoisting).

Conventions:
* Rust functions that can `bug!`/`panic!` are embedded as `Option`-returning
  functions; `none` models the fatal path.
* Machine integers are `Nat` (the `u128` scalar representation used by the
  checker); overflow points (`checked_add` on `u128`) are modelled with
  explicit `2 ^ 128` guards.
* Type-oracle facts (inhabitedness, visibility, stability, layout) are plain
  data carried by the embedded types, or an injected oracle function on the
  checking context, exactly as the spec's §6/§9 describes them.
* Source spans are diagnostic-only and are omitted.
-/

namespace RustcPatternAnalysis

mutual

/-- Scrutinee types, carrying exactly the type-oracle facts `cx.rs`
consults (`ty.kind()` shapes, pointer-sizedness, bit widths, ADT
metadata).  `arg0` on `adt` models `args.type_at(0)` (used for the `Box`
payload); field types are stored already substituted and normalized. -/
inductive Ty : Type where
  | bool : Ty
  | char : Ty
  | int (ptrSized : Bool) (bits : Nat) : Ty
  | uint (ptrSized : Bool) (bits : Nat) : Ty
  | float32 : Ty
  | float64 : Ty
  | str : Ty
  | ref (t : Ty) : Ty
  | tuple (ts : List Ty) : Ty
  | adt (adtDef : AdtDef) (arg0 : Option Ty) : Ty
  | slice (t : Ty) : Ty
  | array (t : Ty) (len : Option Nat) : Ty
  | never : Ty
  | foreign : Ty
  | rawPtr : Ty
  | fnDef : Ty
  | fnPtr : Ty
  | dynamic : Ty
  | closure : Ty
  | coroutine : Ty
  | alias : Ty
  | param : Ty
  | error : Ty

inductive AdtDef : Type where
  | mk (isEnum : Bool) (isBox : Bool) (isLocal : Bool)
      (variantListNonExhaustive : Bool) (variants : List VariantDef) : AdtDef

inductive VariantDef : Type where
  | mk (fields : List FieldDef) (fieldListNonExhaustive : Bool)
      (inhabitedOracle : Bool) (unstableDeny : Bool) (docHidden : Bool)
      (isLocal : Bool) : VariantDef

inductive FieldDef : Type where
  | mk (ty : Ty) (visAccessible : Bool) : FieldDef

end

def AdtDef.isEnum : AdtDef → Bool
  | .mk e _ _ _ _ => e

def AdtDef.isBox : AdtDef → Bool
  | .mk _ b _ _ _ => b

def AdtDef.isLocal : AdtDef → Bool
  | .mk _ _ l _ _ => l

def AdtDef.variantListNonExhaustive : AdtDef → Bool
  | .mk _ _ _ n _ => n

def AdtDef.variants : AdtDef → List VariantDef
  | .mk _ _ _ _ vs => vs

def VariantDef.fields : VariantDef → List FieldDef
  | .mk fs _ _ _ _ _ => fs

def VariantDef.fieldListNonExhaustive : VariantDef → Bool
  | .mk _ n _ _ _ _ => n

def VariantDef.inhabitedOracle : VariantDef → Bool
  | .mk _ _ i _ _ _ => i

def VariantDef.unstableDeny : VariantDef → Bool
  | .mk _ _ _ u _ _ => u

def VariantDef.docHidden : VariantDef → Bool
  | .mk _ _ _ _ d _ => d

def VariantDef.isLocal : VariantDef → Bool
  | .mk _ _ _ _ _ l => l

def FieldDef.ty : FieldDef → Ty
  | .mk t _ => t

def FieldDef.visAccessible : FieldDef → Bool
  | .mk _ v => v

/-- Embeds `ty.is_ptr_sized_integral()`. -/
def Ty.isPtrSizedIntegral : Ty → Bool
  | .int p _ => p
  | .uint p _ => p
  | _ => false

/-- Bit width of the scalar layout of an integer-like type
(`Integer::from_{int,uint}_ty(..).size().bits()`, `ty.primitive_size`);
`char` is a 4-byte scalar.  Junk value on other types (never consulted
there by the embedded code paths). -/
def Ty.primitiveSizeBits : Ty → Nat
  | .int _ b => b
  | .uint _ b => b
  | .char => 32
  | _ => 0

/-- Modelled from the spec: §3 "MaybeInfiniteInt: NegInfinity | Finite
(bias-adjusted unsigned value) | JustAfterMax | PosInfinity — a total order
over integer boundaries including the unrepresentable 'one past the max'
sentinel."  The type itself lives in `constructor.rs`, which is not part of
the source bundle; only its operations used by `cx.rs` are modelled here.
`finite` carries the bias-adjusted `u128` value as a `Nat`. -/
inductive MaybeInfiniteInt : Type where
  | negInfinity : MaybeInfiniteInt
  | finite (x : Nat) : MaybeInfiniteInt
  | justAfterMax : MaybeInfiniteInt
  | posInfinity : MaybeInfiniteInt
deriving DecidableEq, Repr

/-- Modelled from the spec: the "bias/sentinel scheme" of §4.2 — signed
types are re-centered so that the encoded values are unsigned and ordered;
the bias is `1 << (bits - 1)` for signed integer types and `0` otherwise
(this is also forced by `hoist_pat_range_bdy` in `cx.rs`, which decodes
with `x ^ bias`). -/
def MaybeInfiniteInt.signedBias (ty : Ty) : Nat :=
  match ty with
  | .int _ bits => 2 ^ (bits - 1)
  | _ => 0

/-- Modelled from the spec: §3 "Finite (bias-adjusted unsigned value)" —
encode raw scalar bits of type `ty` as a finite boundary. -/
def MaybeInfiniteInt.newFinite (ty : Ty) (bits : Nat) : MaybeInfiniteInt :=
  .finite (bits ^^^ MaybeInfiniteInt.signedBias ty)

/-- Modelled from the spec: successor on integer boundaries.  On the largest
`u128` value the checked add overflows to the `JustAfterMax` sentinel; one
past `JustAfterMax` is a fatal error (`none`); infinities are fixed. -/
def MaybeInfiniteInt.plusOne : MaybeInfiniteInt → Option MaybeInfiniteInt
  | .finite n => if n + 1 < 2 ^ 128 then some (.finite (n + 1)) else some .justAfterMax
  | .justAfterMax => none
  | .negInfinity => some .negInfinity
  | .posInfinity => some .posInfinity

/-- Modelled from the spec: predecessor on integer boundaries.  Below the
encoded minimum (`Finite 0`) is a fatal error; `JustAfterMax` steps back to
the largest `u128` value; infinities are fixed. -/
def MaybeInfiniteInt.minusOne : MaybeInfiniteInt → Option MaybeInfiniteInt
  | .finite n => if n = 0 then none else some (.finite (n - 1))
  | .justAfterMax => some (.finite (2 ^ 128 - 1))
  | .negInfinity => some .negInfinity
  | .posInfinity => some .posInfinity

/-- Modelled from the spec: §3 "a total order over integer boundaries":
`NegInfinity < Finite _ < JustAfterMax < PosInfinity`, finite values by
magnitude. -/
def MaybeInfiniteInt.blt : MaybeInfiniteInt → MaybeInfiniteInt → Bool
  | .negInfinity, .negInfinity => false
  | .negInfinity, _ => true
  | .finite _, .negInfinity => false
  | .finite a, .finite b => a < b
  | .finite _, _ => true
  | .justAfterMax, .posInfinity => true
  | .justAfterMax, _ => false
  | .posInfinity, _ => false

/-- Embeds `thir::RangeEnd`. -/
inductive RangeEnd : Type where
  | included : RangeEnd
  | excluded : RangeEnd
deriving DecidableEq, Repr

/-- Modelled from the spec: §3 "IntRange: {lo, hi: MaybeInfiniteInt}".  The
upper bound is stored exclusive: `hoist_pat_range` in `cx.rs` converts it
back "to an inclusive range for diagnostics" with `hi.minus_one()`, and
`is_range_beyond_boundaries` reads `hi = Finite(0)` as the range below the
encoded minimum, both of which force the exclusive-upper-bound form. -/
structure IntRange : Type where
  lo : MaybeInfiniteInt
  hi : MaybeInfiniteInt
deriving DecidableEq, Repr

/-- Modelled from the spec: §4.2 "Integer/char range → IntRange with bounds
resolved through the bias/sentinel scheme (open-ended bounds become
±Infinity)".  An included upper bound is normalized to the exclusive form
by `plus_one`; an empty range (`lo >= hi`) is a fatal error. -/
def IntRange.fromRange (lo hi : MaybeInfiniteInt) (rend : RangeEnd) : Option IntRange :=
  match (if rend = .included then hi.plusOne else some hi) with
  | none => none
  | some hi => if lo.blt hi then some ⟨lo, hi⟩ else none

/-- Modelled from the spec: the singleton range holding exactly the scalar
with representation `bits` at type `ty`.  The `getD` default is dead code:
the encoded bound is always `finite`, so `plusOne` always succeeds. -/
def IntRange.fromBits (ty : Ty) (bits : Nat) : IntRange :=
  let x := MaybeInfiniteInt.newFinite ty bits
  { lo := x, hi := x.plusOne.getD .justAfterMax }

/-- Modelled from the spec: a range is a singleton iff its exclusive upper
bound is one past its lower bound. -/
def IntRange.isSingleton (r : IntRange) : Bool :=
  r.lo.plusOne == some r.hi

/-- Modelled from the spec: §3 "Slice(kind: FixedLen(n) |
VarLen(prefix,suffix), optional static array length)". -/
inductive SliceKind : Type where
  | fixedLen (n : Nat) : SliceKind
  | varLen (pre suf : Nat) : SliceKind
deriving DecidableEq, Repr

/-- Modelled from the spec: the slice constructor data (kind plus the
statically known array length when there is one). -/
structure Slice : Type where
  arrayLen : Option Nat
  kind : SliceKind
deriving DecidableEq, Repr

/-- Modelled from the spec: §4.2 "slice → its own encoded arity" — the
number of explicit element subpatterns: `n` for a fixed-length slice,
`prefix + suffix` for a variable-length one (forced by the
`DeconstructedPat` invariant child count == arity and the lowering, which
stores exactly the prefix and suffix subpatterns). -/
def Slice.arity (s : Slice) : Nat :=
  match s.kind with
  | .fixedLen n => n
  | .varLen pre suf => pre + suf

/-- Modelled from the spec: constructor of a `Slice` value from its parts
(`Slice::new`). -/
def Slice.new (arrayLen : Option Nat) (kind : SliceKind) : Slice :=
  ⟨arrayLen, kind⟩

/-- A constant from the constant-evaluation collaborator (§6): either a
scalar evaluable to bits, a string literal (opaque, compared by identity),
or a constant the evaluator cannot reduce ("not evaluable", forcing
Opaque). -/
inductive ConstValue : Type where
  | scalar (bits : Nat) : ConstValue
  | strLit (id : Nat) : ConstValue
  | unevaluable (id : Nat) : ConstValue
deriving DecidableEq, Repr

/-- Embeds `value.try_eval_bits(..)`. -/
def ConstValue.tryEvalBits : ConstValue → Option Nat
  | .scalar bits => some bits
  | _ => none

/-- Embeds `value.try_eval_bool(..)`: a scalar `0`/`1` is a boolean. -/
def ConstValue.tryEvalBool : ConstValue → Option Bool
  | .scalar 0 => some false
  | .scalar 1 => some true
  | _ => none

/-- Embeds `mir::Const::from_bool`. -/
def ConstValue.fromBool (b : Bool) : ConstValue :=
  .scalar (if b then 1 else 0)

/-- Embeds `thir::PatRangeBoundary`. -/
inductive PatRangeBoundary : Type where
  | negInfinity : PatRangeBoundary
  | finite (value : ConstValue) : PatRangeBoundary
  | posInfinity : PatRangeBoundary
deriving DecidableEq, Repr

/-- Embeds `PatRangeBoundary::as_finite`. -/
def PatRangeBoundary.asFinite : PatRangeBoundary → Option ConstValue
  | .finite v => some v
  | _ => none

/-- Embeds the closed `Constructor` vocabulary (§3).  `opaqueCtor` is the
source's `Opaque(OpaqueId)` (renamed because of a Lean keyword); float
range endpoints are carried as their IEEE bit patterns, which is all the
checker ever compares. -/
inductive Constructor : Type where
  | single : Constructor
  | variant (idx : Nat) : Constructor
  | bool (b : Bool) : Constructor
  | intRange (r : IntRange) : Constructor
  | f32Range (lo hi : Nat) (rend : RangeEnd) : Constructor
  | f64Range (lo hi : Nat) (rend : RangeEnd) : Constructor
  | str (value : ConstValue) : Constructor
  | slice (s : Slice) : Constructor
  | opaqueCtor (id : Nat) : Constructor
  | nonExhaustive : Constructor
  | hidden : Constructor
  | missing : Constructor
  | wildcard : Constructor
  | or : Constructor
deriving DecidableEq, Repr

/-- Embeds `VariantVisibility`. -/
inductive VariantVisibility : Type where
  | visible : VariantVisibility
  | hidden : VariantVisibility
  | empty : VariantVisibility
deriving DecidableEq, Repr

/-- Embeds `ConstructorSet` (§3). -/
inductive ConstructorSet : Type where
  | bool : ConstructorSet
  | integers (range1 : IntRange) (range2 : Option IntRange) : ConstructorSet
  | slice (arrayLen : Option Nat) (subtypeIsEmpty : Bool) : ConstructorSet
  | variants (vs : List VariantVisibility) (nonExhaustive : Bool) : ConstructorSet
  | single (empty : Bool) : ConstructorSet
  | noConstructors : ConstructorSet
  | unlistable : ConstructorSet
deriving DecidableEq, Repr

/-- The checking context `MatchCheckCtxt`, reduced to the facts the
embedded functions consult: the `exhaustive_patterns` feature switch and
the inhabitedness oracle `!ty.is_inhabited_from(tcx, module, param_env)`
(a read-only injected capability, §9). -/
structure Cx : Type where
  featureExhaustivePatterns : Bool
  isUninhabitedTy : Ty → Bool

/-- Embeds `MatchCheckCtxt::is_uninhabited`. -/
def Cx.isUninhabited (cx : Cx) (ty : Ty) : Bool :=
  cx.isUninhabitedTy ty

/-- Embeds `MatchCheckCtxt::is_foreign_non_exhaustive_enum`: an enum from
another crate declared `#[non_exhaustive]`. -/
def isForeignNonExhaustiveEnum (ty : Ty) : Bool :=
  match ty with
  | .adt adtDef _ =>
      adtDef.isEnum && adtDef.variantListNonExhaustive && !adtDef.isLocal
  | _ => false

/-- Embeds `MatchCheckCtxt::list_variant_nonhidden_fields`: the kept
(declared index, type) pairs of a variant, in declaration order.  A field
is dropped when it is "visibly uninhabited" (under the
`exhaustive_patterns` feature) and either not visible from the match's
module or part of a foreign `#[non_exhaustive]` field list.  Calling it on
a non-ADT type is a fatal error (`bug!`). -/
def listVariantNonhiddenFields (cx : Cx) (ty : Ty) (variant : VariantDef) :
    Option (List (Nat × Ty)) :=
  match ty with
  | .adt adtDef _ =>
      let isNonExhaustive := variant.fieldListNonExhaustive && !adtDef.isLocal
      some (variant.fields.enum.filterMap fun p =>
        let fty := p.2.ty
        let isVisible := adtDef.isEnum || p.2.visAccessible
        let isUninhabited := cx.featureExhaustivePatterns && cx.isUninhabited fty
        if isUninhabited && (!isVisible || isNonExhaustive) then none
        else some (p.1, fty))
  | _ => none

/-- Embeds `MatchCheckCtxt::variant_index_for_adt`.  `Single` on an enum
trips the `assert!(!adt.is_enum())`; any other constructor is a `bug!`. -/
def variantIndexForAdt (ctor : Constructor) (adtDef : AdtDef) : Option Nat :=
  match ctor with
  | .variant idx => some idx
  | .single => if adtDef.isEnum then none else some 0
  | _ => none

mutual

/-- Embeds `DeconstructedPat` (§3): constructor, ordered child patterns
and type (the diagnostic span is omitted).  Children use the dedicated
list type `DPats` so that all recursion over pattern trees is structural. -/
inductive DeconstructedPat : Type where
  | mk (ctor : Constructor) (fields : DPats) (ty : Ty) : DeconstructedPat

inductive DPats : Type where
  | nil : DPats
  | cons (p : DeconstructedPat) (ps : DPats) : DPats

end

def DeconstructedPat.ctor : DeconstructedPat → Constructor
  | .mk c _ _ => c

def DeconstructedPat.fields : DeconstructedPat → DPats
  | .mk _ fs _ => fs

def DeconstructedPat.ty : DeconstructedPat → Ty
  | .mk _ _ t => t

/-- Embeds `DeconstructedPat::wildcard(ty, span)`. -/
def DeconstructedPat.wildcard (ty : Ty) : DeconstructedPat :=
  .mk .wildcard .nil ty

def DPats.toList : DPats → List DeconstructedPat
  | .nil => []
  | .cons p ps => p :: ps.toList

def DPats.ofList : List DeconstructedPat → DPats
  | [] => .nil
  | p :: ps => .cons p (DPats.ofList ps)

def DPats.length : DPats → Nat
  | .nil => 0
  | .cons _ ps => ps.length + 1

mutual

/-- Modelled from the spec: §3 "WitnessPat: same shape as DeconstructedPat,
produced only by the algorithm" (the type itself lives in `pat.rs`, not in
the source bundle). -/
inductive WitnessPat : Type where
  | mk (ctor : Constructor) (fields : WPats) (ty : Ty) : WitnessPat

inductive WPats : Type where
  | nil : WPats
  | cons (p : WitnessPat) (ps : WPats) : WPats

end

def WitnessPat.ctor : WitnessPat → Constructor
  | .mk c _ _ => c

def WitnessPat.fields : WitnessPat → WPats
  | .mk _ fs _ => fs

def WitnessPat.ty : WitnessPat → Ty
  | .mk _ _ t => t

mutual

/-- The witness form of a deconstructed pattern: the same constructor tree,
re-tagged as a `WitnessPat` (§3: "same shape as DeconstructedPat"). -/
def DeconstructedPat.toWitness : DeconstructedPat → WitnessPat
  | .mk ctor fields ty => .mk ctor fields.toWitness ty

def DPats.toWitness : DPats → WPats
  | .nil => .nil
  | .cons p ps => .cons p.toWitness ps.toWitness

end

/-- Embeds `MatchCheckCtxt::alloc_wildcard_slice`: one wildcard pattern per
given type (arena allocation is immaterial in the model). -/
def allocWildcardSlice (tys : List Ty) : List DeconstructedPat :=
  tys.map DeconstructedPat.wildcard

/-- Embeds `MatchCheckCtxt::ctor_wildcard_fields`: the list of wildcard
subpatterns of `ctor` at type `ty`.  The `bug!` arms (`Or`, a constructor
applied at a type it does not belong to, a `Box` ADT with no generic
arguments) are `none`. -/
def ctorWildcardFields (cx : Cx) (ctor : Constructor) (ty : Ty) :
    Option (List DeconstructedPat) :=
  match ctor with
  | .single | .variant _ =>
      match ty with
      | .tuple fs => some (allocWildcardSlice fs)
      | .ref rty => some (allocWildcardSlice [rty])
      | .adt adtDef arg0 =>
          if adtDef.isBox then
            match arg0 with
            | some t => some (allocWildcardSlice [t])
            | none => none
          else
            match variantIndexForAdt ctor adtDef with
            | none => none
            | some idx =>
                match adtDef.variants.get? idx with
                | none => none
                | some variant =>
                    match listVariantNonhiddenFields cx ty variant with
                    | none => none
                    | some nh => some (nh.map fun p => DeconstructedPat.wildcard p.2)
      | _ => none
  | .slice s =>
      match ty with
      | .slice t | .array t _ =>
          some (List.replicate s.arity (DeconstructedPat.wildcard t))
      | _ => none
  | .bool _ | .intRange _ | .f32Range _ _ _ | .f64Range _ _ _ | .str _
  | .opaqueCtor _ | .nonExhaustive | .hidden | .missing | .wildcard => some []
  | .or => none

/-- Embeds `MatchCheckCtxt::ctor_arity` (the number of fields of `ctor` at
`ty`; "must be kept in sync with" the wildcard-field list).  `bug!` arms
are `none`. -/
def ctorArity (cx : Cx) (ctor : Constructor) (ty : Ty) : Option Nat :=
  match ctor with
  | .single | .variant _ =>
      match ty with
      | .tuple fs => some fs.length
      | .ref _ => some 1
      | .adt adtDef _ =>
          if adtDef.isBox then some 1
          else
            match variantIndexForAdt ctor adtDef with
            | none => none
            | some idx =>
                match adtDef.variants.get? idx with
                | none => none
                | some variant =>
                    match listVariantNonhiddenFields cx ty variant with
                    | none => none
                    | some nh => some nh.length
      | _ => none
  | .slice s => some s.arity
  | .bool _ | .intRange _ | .f32Range _ _ _ | .f64Range _ _ _ | .str _
  | .opaqueCtor _ | .nonExhaustive | .hidden | .missing | .wildcard => some 0
  | .or => none

/-- Visibility tag computed for one enum variant inside `ctors_for_ty`:
`Empty` if visibly uninhabited, else `Hidden` if unstable or foreign
`#[doc(hidden)]`, else `Visible`. -/
def variantVisibilityOf (v : VariantDef) : VariantVisibility :=
  if !v.inhabitedOracle then .empty
  else if v.unstableDeny || (v.docHidden && !v.isLocal) then .hidden
  else .visible

/-- Embeds `MatchCheckCtxt::ctors_for_ty`: the set of all constructors of
`ty`.  `none` models the `bug!` on types the checker never sees, and the
fatal paths of `make_range` (an empty range). -/
def ctorsForTy (cx : Cx) (ty : Ty) : Option ConstructorSet :=
  let makeRange := fun (s e : Nat) =>
    IntRange.fromRange (MaybeInfiniteInt.newFinite ty s)
      (MaybeInfiniteInt.newFinite ty e) .included
  match ty with
  | .bool => some .bool
  | .char =>
      match makeRange 0x0000 0xD7FF, makeRange 0xE000 0x10FFFF with
      | some r1, some r2 => some (.integers r1 (some r2))
      | _, _ => none
  | .int ptrSized bits =>
      if ptrSized then
        -- The min/max values of `isize` are not allowed to be observed.
        some (.integers ⟨.negInfinity, .posInfinity⟩ none)
      else
        let min := 2 ^ (bits - 1)
        let max := min - 1
        match makeRange min max with
        | some r => some (.integers r none)
        | none => none
  | .uint ptrSized bits =>
      if ptrSized then
        -- The max value of `usize` is not allowed to be observed.
        some (.integers ⟨MaybeInfiniteInt.newFinite ty 0, .posInfinity⟩ none)
      else
        match makeRange 0 (2 ^ bits - 1) with
        | some r => some (.integers r none)
        | none => none
  | .slice t => some (.slice none (cx.isUninhabited t))
  | .array t len => some (.slice len (cx.isUninhabited t))
  | .adt adtDef _ =>
      if adtDef.isEnum then
        let isDeclaredNonexhaustive := isForeignNonExhaustiveEnum ty
        if adtDef.variants.isEmpty && !isDeclaredNonexhaustive then
          some .noConstructors
        else
          some (.variants (adtDef.variants.map variantVisibilityOf)
            isDeclaredNonexhaustive)
      else some (.single (cx.isUninhabited ty))
  | .tuple _ | .ref _ => some (.single (cx.isUninhabited ty))
  | .never => some .noConstructors
  | .float32 | .float64 | .str | .foreign | .rawPtr | .fnDef | .fnPtr
  | .dynamic | .closure | .coroutine | .alias | .param | .error =>
      some .unlistable

mutual

/-- Embeds the typed surface pattern tree `thir::Pat` (§6 "Consumed input
shape"), restricted to the node kinds `lower_pat` matches on.  Spans and
binding metadata that the lowering never reads are omitted; `Binding` is
split into its `subpattern: None` / `Some` forms.  Dedicated list types
keep all recursion structural. -/
inductive Pat : Type where
  | mk (ty : Ty) (kind : PatKind) : Pat

inductive PatKind : Type where
  | wild : PatKind
  | bindingNone : PatKind
  | bindingSome (subpattern : Pat) : PatKind
  | ascribeUserType (subpattern : Pat) : PatKind
  | inlineConstant (subpattern : Pat) : PatKind
  | deref (subpattern : Pat) : PatKind
  | leaf (subpatterns : FieldPats) : PatKind
  | variant (variantIndex : Nat) (subpatterns : FieldPats) : PatKind
  | constant (value : ConstValue) : PatKind
  | range (lo hi : PatRangeBoundary) (rend : RangeEnd) : PatKind
  | array (pre : Pats) (restPat : RestPat) (suf : Pats) : PatKind
  | slice (pre : Pats) (restPat : RestPat) (suf : Pats) : PatKind
  | or (pats : Pats) : PatKind
  | never : PatKind
  | error : PatKind

/-- The optional `..` rest subpattern of an array/slice pattern
(`slice : Option<Box<Pat>>`). -/
inductive RestPat : Type where
  | none : RestPat
  | some (p : Pat) : RestPat

inductive Pats : Type where
  | nil : Pats
  | cons (p : Pat) (ps : Pats) : Pats

/-- A `FieldPat`: subpattern for the declared field with the given index. -/
inductive FieldPats : Type where
  | nil : FieldPats
  | cons (field : Nat) (pattern : Pat) (ps : FieldPats) : FieldPats

end

def Pat.ty : Pat → Ty
  | .mk t _ => t

def Pat.kind : Pat → PatKind
  | .mk _ k => k

/-- Embeds `Pat::wildcard_from_ty`. -/
def Pat.wildcardFromTy (ty : Ty) : Pat :=
  .mk ty .wild

def RestPat.isSome : RestPat → Bool
  | .none => false
  | .some _ => true

def Pats.toList : Pats → List Pat
  | .nil => []
  | .cons p ps => p :: ps.toList

def Pats.ofList : List Pat → Pats
  | [] => .nil
  | p :: ps => .cons p (Pats.ofList ps)

def Pats.length : Pats → Nat
  | .nil => 0
  | .cons _ ps => ps.length + 1

def Pats.append : Pats → Pats → Pats
  | .nil, qs => qs
  | .cons p ps, qs => .cons p (ps.append qs)

def Pats.all (f : Pat → Bool) : Pats → Bool
  | .nil => true
  | .cons p ps => f p && Pats.all f ps

/-- Whether the pattern's head is an or-pattern node. -/
def Pat.isOr : Pat → Bool
  | .mk _ (.or _) => true
  | .mk _ _ => false

mutual

/-- Embeds `expand_or_pat`: recursively flatten an or-pattern into the list
of its non-or alternatives (a non-or pattern expands to itself). -/
def expandOrPat (p : Pat) : Pats :=
  match p with
  | .mk _ (.or pats) => expandOrPatList pats
  | p => .cons p .nil

def expandOrPatList (ps : Pats) : Pats :=
  match ps with
  | .nil => .nil
  | .cons p ps => (expandOrPat p).append (expandOrPatList ps)

end

/-- Embeds `MatchCheckCtxt::lower_pat_range_bdy`: resolve a surface range
boundary through the bias/sentinel scheme.  `eval_bits` on an unevaluable
constant is a panic (`none`). -/
def lowerPatRangeBdy (cx : Cx) (bdy : PatRangeBoundary) (ty : Ty) :
    Option MaybeInfiniteInt :=
  match cx, bdy with
  | _, .negInfinity => some .negInfinity
  | _, .finite value =>
      match value.tryEvalBits with
      | some bits => some (MaybeInfiniteInt.newFinite ty bits)
      | none => none
  | _, .posInfinity => some .posInfinity

/-- IEEE-754 bit patterns of the infinities used for open float range
bounds (`-Single::INFINITY` etc.). -/
def f32NegInfinityBits : Nat := 0xFF800000

def f32InfinityBits : Nat := 0x7F800000

def f64NegInfinityBits : Nat := 0xFFF0000000000000

def f64InfinityBits : Nat := 0x7FF0000000000000

/-- Embeds `bdy.as_finite().map(|c| c.eval_bits(..))` on a float range
boundary: `none` models the panic of `eval_bits` on an unevaluable
constant; `some none` is an infinite (absent) bound. -/
def evalFiniteBdy : PatRangeBoundary → Option (Option Nat)
  | .finite v =>
      match v.tryEvalBits with
      | some bits => some (some bits)
      | none => none
  | .negInfinity => some none
  | .posInfinity => some none

/-- The `field_id_to_id` table of `lower_pat`'s ADT case: maps a declared
field index to its position among the nonhidden fields, `none` for hidden
fields. -/
def buildFieldMapping (len : Nat) (nh : List (Nat × Ty)) : List (Option Nat) :=
  nh.enum.foldl (fun m q => m.set q.2.1 (some q.1)) (List.replicate len none)

mutual

/-- Embeds `MatchCheckCtxt::lower_pat`.  The extra `n` is the session's
monotonically increasing `OpaqueId` counter (§3 lifecycle), threaded
through: minting `Opaque(OpaqueId::new())` yields id `n` and advances the
counter.  `none` models the `bug!`/panic paths (pattern at an unexpected
type, unevaluable array length, malformed range, out-of-range field
index).  The `Leaf`/`Variant` bodies are textually duplicated because the
source handles both in a single `match` arm distinguished only by the
constructor it picks. -/
def lowerPat (cx : Cx) (p : Pat) (n : Nat) : Option (DeconstructedPat × Nat) :=
  match p with
  | .mk ty kind =>
    match kind with
    | .ascribeUserType subpattern => lowerPat cx subpattern n
    | .inlineConstant subpattern => lowerPat cx subpattern n
    | .bindingSome subpattern => lowerPat cx subpattern n
    | .bindingNone => some (.mk .wildcard .nil ty, n)
    | .wild => some (.mk .wildcard .nil ty, n)
    | .deref subpattern =>
        match lowerPat cx subpattern n with
        | none => none
        | some (d, n) => some (.mk .single (.cons d .nil) ty, n)
    | .leaf subpatterns =>
        match ty with
        | .tuple fs =>
            let wilds := fs.map DeconstructedPat.wildcard
            match lowerLeafFields cx subpatterns wilds n with
            | none => none
            | some (fields, n) => some (.mk .single (DPats.ofList fields) ty, n)
        | .adt adtDef arg0 =>
            if adtDef.isBox then
              match lowerBoxSub cx subpatterns arg0 n with
              | none => none
              | some (d, n) => some (.mk .single (.cons d .nil) ty, n)
            else
              match variantIndexForAdt .single adtDef with
              | none => none
              | some vidx =>
                  match adtDef.variants.get? vidx with
                  | none => none
                  | some variant =>
                      match listVariantNonhiddenFields cx ty variant with
                      | none => none
                      | some nh =>
                          let mapping := buildFieldMapping variant.fields.length nh
                          let wilds := nh.map fun q => DeconstructedPat.wildcard q.2
                          match lowerAdtFields cx subpatterns mapping wilds n with
                          | none => none
                          | some (fields, n) =>
                              some (.mk .single (DPats.ofList fields) ty, n)
        | _ => none
    | .variant variantIndex subpatterns =>
        match ty with
        | .tuple fs =>
            let wilds := fs.map DeconstructedPat.wildcard
            match lowerLeafFields cx subpatterns wilds n with
            | none => none
            | some (fields, n) => some (.mk .single (DPats.ofList fields) ty, n)
        | .adt adtDef arg0 =>
            if adtDef.isBox then
              match lowerBoxSub cx subpatterns arg0 n with
              | none => none
              | some (d, n) => some (.mk .single (.cons d .nil) ty, n)
            else
              match variantIndexForAdt (.variant variantIndex) adtDef with
              | none => none
              | some vidx =>
                  match adtDef.variants.get? vidx with
                  | none => none
                  | some variant =>
                      match listVariantNonhiddenFields cx ty variant with
                      | none => none
                      | some nh =>
                          let mapping := buildFieldMapping variant.fields.length nh
                          let wilds := nh.map fun q => DeconstructedPat.wildcard q.2
                          match lowerAdtFields cx subpatterns mapping wilds n with
                          | none => none
                          | some (fields, n) =>
                              some (.mk (.variant variantIndex) (DPats.ofList fields) ty, n)
        | _ => none
    | .constant value =>
        match ty with
        | .bool =>
            match value.tryEvalBool with
            | some b => some (.mk (.bool b) .nil ty, n)
            | none => some (.mk (.opaqueCtor n) .nil ty, n + 1)
        | .char | .int _ _ | .uint _ _ =>
            match value.tryEvalBits with
            | some bits => some (.mk (.intRange (IntRange.fromBits ty bits)) .nil ty, n)
            | none => some (.mk (.opaqueCtor n) .nil ty, n + 1)
        | .float32 =>
            match value.tryEvalBits with
            | some bits => some (.mk (.f32Range bits bits .included) .nil ty, n)
            | none => some (.mk (.opaqueCtor n) .nil ty, n + 1)
        | .float64 =>
            match value.tryEvalBits with
            | some bits => some (.mk (.f64Range bits bits .included) .nil ty, n)
            | none => some (.mk (.opaqueCtor n) .nil ty, n + 1)
        | .ref t =>
            match t with
            | .str =>
                some (.mk .single (.cons (DeconstructedPat.mk (.str value) .nil t) .nil) ty, n)
            | _ => some (.mk (.opaqueCtor n) .nil ty, n + 1)
        | _ => some (.mk (.opaqueCtor n) .nil ty, n + 1)
    | .range lo hi rend =>
        match ty with
        | .char | .int _ _ | .uint _ _ =>
            match lowerPatRangeBdy cx lo ty, lowerPatRangeBdy cx hi ty with
            | some l, some h =>
                match IntRange.fromRange l h rend with
                | some r => some (.mk (.intRange r) .nil ty, n)
                | none => none
            | _, _ => none
        | .float32 =>
            match evalFiniteBdy lo, evalFiniteBdy hi with
            | some loB, some hiB =>
                some (.mk (.f32Range (loB.getD f32NegInfinityBits)
                  (hiB.getD f32InfinityBits) rend) .nil ty, n)
            | _, _ => none
        | .float64 =>
            match evalFiniteBdy lo, evalFiniteBdy hi with
            | some loB, some hiB =>
                some (.mk (.f64Range (loB.getD f64NegInfinityBits)
                  (hiB.getD f64InfinityBits) rend) .nil ty, n)
            | _, _ => none
        | _ => none
    | .array pre restPat suf | .slice pre restPat suf =>
        match (match ty with
               | .array _ (some l) => some (some l)
               | .array _ none => none
               | .slice _ => some none
               | _ => none : Option (Option Nat)) with
        | none => none
        | some arrayLen =>
            let kind := if restPat.isSome then SliceKind.varLen pre.length suf.length
                        else SliceKind.fixedLen (pre.length + suf.length)
            match lowerPats cx pre n with
            | none => none
            | some (dpre, n) =>
                match lowerPats cx suf n with
                | none => none
                | some (dsuf, n) =>
                    some (.mk (.slice (Slice.new arrayLen kind))
                      (DPats.ofList (dpre ++ dsuf)) ty, n)
    | .or pats =>
        match lowerOrPats cx pats n with
        | none => none
        | some (ds, n) => some (.mk .or (DPats.ofList ds) ty, n)
    | .never => some (.mk .wildcard .nil ty, n)
    | .error => some (.mk (.opaqueCtor n) .nil ty, n + 1)

/-- Lower a list of patterns left to right, threading the opaque-id
counter. -/
def lowerPats (cx : Cx) (ps : Pats) (n : Nat) :
    Option (List DeconstructedPat × Nat) :=
  match ps with
  | .nil => some ([], n)
  | .cons p ps =>
      match lowerPat cx p n with
      | none => none
      | some (d, n) =>
          match lowerPats cx ps n with
          | none => none
          | some (ds, n) => some (d :: ds, n)

/-- The or-pattern case of `lower_pat`: lower
`expand_or_pat(pat)` — or-headed alternatives are flattened in place,
other alternatives are lowered as they are.  Written recursively so the
flattening is structural; `lowerOrPats_eq_expand` below proves it equal to
lowering the `expandOrPat` list. -/
def lowerOrPats (cx : Cx) (ps : Pats) (n : Nat) :
    Option (List DeconstructedPat × Nat) :=
  match ps with
  | .nil => some ([], n)
  | .cons (.mk _ (.or inner)) ps =>
      match lowerOrPats cx inner n with
      | none => none
      | some (ds1, n) =>
          match lowerOrPats cx ps n with
          | none => none
          | some (ds2, n) => some (ds1 ++ ds2, n)
  | .cons p ps =>
      match lowerPat cx p n with
      | none => none
      | some (d, n) =>
          match lowerOrPats cx ps n with
          | none => none
          | some (ds, n) => some (d :: ds, n)

/-- The `Leaf`/`Variant` field loop over a tuple type:
`wilds[pat.field.index()] = lower_pat(pat.pattern)` for each field
pattern; an out-of-range field index is a panic. -/
def lowerLeafFields (cx : Cx) (fps : FieldPats) (wilds : List DeconstructedPat)
    (n : Nat) : Option (List DeconstructedPat × Nat) :=
  match fps with
  | .nil => some (wilds, n)
  | .cons f q rest =>
      if f < wilds.length then
        match lowerPat cx q n with
        | none => none
        | some (d, n) => lowerLeafFields cx rest (wilds.set f d) n
      else none

/-- The `Leaf`/`Variant` field loop over a non-box ADT: a field pattern is
lowered into the position `field_id_to_id` assigns to its declared index,
skipped if its field is hidden, and a panic (`none`) if its index is out
of range. -/
def lowerAdtFields (cx : Cx) (fps : FieldPats) (mapping : List (Option Nat))
    (wilds : List DeconstructedPat) (n : Nat) :
    Option (List DeconstructedPat × Nat) :=
  match fps with
  | .nil => some (wilds, n)
  | .cons f q rest =>
      match mapping.get? f with
      | none => none
      | some none => lowerAdtFields cx rest mapping wilds n
      | some (some i) =>
          match lowerPat cx q n with
          | none => none
          | some (d, n) => lowerAdtFields cx rest mapping (wilds.set i d) n

/-- The `Box` case of `Leaf`/`Variant`: find the subpattern for field 0 and
lower it; if there is none, the payload is a wildcard at `args.type_at(0)`
(a panic when the ADT has no type arguments). -/
def lowerBoxSub (cx : Cx) (fps : FieldPats) (arg0 : Option Ty) (n : Nat) :
    Option (DeconstructedPat × Nat) :=
  match fps with
  | .nil =>
      match arg0 with
      | some t => some (DeconstructedPat.wildcard t, n)
      | none => none
  | .cons f q rest =>
      if f = 0 then lowerPat cx q n else lowerBoxSub cx rest arg0 n

end

/-- Embeds `MatchCheckCtxt::hoist_pat_range_bdy`: decode an internal
boundary back to a surface one.  A decoded value that does not fit the
type's scalar size (only possible for the fictitious
`{u,i}size::MAX + 1`) becomes `PosInfinity`. -/
def hoistPatRangeBdy (cx : Cx) (miint : MaybeInfiniteInt) (ty : Ty) :
    PatRangeBoundary :=
  match cx, miint with
  | _, .negInfinity => .negInfinity
  | _, .finite x =>
      let bias := MaybeInfiniteInt.signedBias ty
      let bits := x ^^^ bias
      if bits < 2 ^ ty.primitiveSizeBits then .finite (.scalar bits)
      else .posInfinity
  | _, .justAfterMax => .posInfinity
  | _, .posInfinity => .posInfinity

/-- Embeds `ty.numeric_max_val(tcx)`: the largest value of an integer type,
as a constant carrying its scalar bit representation. -/
def numericMaxVal : Ty → Option ConstValue
  | .uint _ bits => some (.scalar (2 ^ bits - 1))
  | .int _ bits => some (.scalar (2 ^ (bits - 1) - 1))
  | _ => none

/-- Embeds `MatchCheckCtxt::hoist_pat_range`: convert an internal range
back to a surface pattern.  The full `NegInfinity..PosInfinity` range
renders as a wildcard, a singleton as a bare constant, anything else as an
inclusive range (with the `..ty::MIN` and `ty::MAX+1..` fictitious ranges
special-cased). -/
def hoistPatRange (cx : Cx) (r : IntRange) (ty : Ty) : Option Pat :=
  if r.lo == .negInfinity && r.hi == .posInfinity then
    some (.mk ty .wild)
  else if r.isSingleton then
    match (hoistPatRangeBdy cx r.lo ty).asFinite with
    | some value => some (.mk ty (.constant value))
    | none => none
  else
    match (match hoistPatRangeBdy cx r.lo ty with
           | .posInfinity =>
               match numericMaxVal ty with
               | some c => some (PatRangeBoundary.finite c)
               | none => none
           | lo => some lo : Option PatRangeBoundary) with
    | none => none
    | some lo =>
        match (if r.hi == .finite 0 then some (RangeEnd.excluded, r.hi)
               else match r.hi.minusOne with
                    | some h => some (RangeEnd.included, h)
                    | none => none : Option (RangeEnd × MaybeInfiniteInt)) with
        | none => none
        | some (rend, hiM) =>
            some (.mk ty (.range lo (hoistPatRangeBdy cx hiM ty) rend))

/-- The `is_wildcard` closure of `hoist_witness_pat`: is the (already
hoisted) pattern a wildcard node. -/
def isWildPat (p : Pat) : Bool :=
  match p.kind with
  | .wild => true
  | _ => false

/-- Field patterns numbered consecutively from `k`
(`subpatterns.enumerate().map(|(i, pattern)| FieldPat { field: i, .. })`
starts at `k = 0`). -/
def enumFieldPatsFrom (k : Nat) : List Pat → FieldPats
  | [] => .nil
  | p :: ps => .cons k p (enumFieldPatsFrom (k + 1) ps)

/-- The prefix-popping loop of the variable-length slice case: remove
trailing wildcards. -/
def dropTrailingWilds (l : List Pat) : List Pat :=
  (l.reverse.dropWhile isWildPat).reverse

mutual

/-- Embeds `MatchCheckCtxt::hoist_witness_pat`: convert a witness back to a
surface pattern for diagnostics.  `none` models the `bug!` paths: a
`Missing` head ("should have been processed in `apply_constructors`"),
float-range / `Opaque` / `Or` heads, a constructor at a type it does not
belong to, and a missing expected field.  Field subpatterns are hoisted
exactly as the source's lazy iterator consumes them (all of them for
tuples and slices, only the first for boxes and references, one per listed
nonhidden field for ADTs). -/
def hoistWitnessPat (cx : Cx) (pat : WitnessPat) : Option Pat :=
  match pat with
  | .mk ctor fields ty =>
    match ctor with
    | .bool b => some (.mk ty (.constant (ConstValue.fromBool b)))
    | .intRange r => hoistPatRange cx r ty
    | .single | .variant _ =>
        match ty with
        | .tuple _ =>
            match hoistWPats cx fields with
            | none => none
            | some ps => some (.mk ty (.leaf (enumFieldPatsFrom 0 ps)))
        | .adt adtDef _ =>
            if adtDef.isBox then
              match fields with
              | .nil => none
              | .cons f _ =>
                  match hoistWitnessPat cx f with
                  | none => none
                  | some sub => some (.mk ty (.deref sub))
            else
              match variantIndexForAdt ctor adtDef with
              | none => none
              | some vidx =>
                  match adtDef.variants.get? vidx with
                  | none => none
                  | some variant =>
                      match listVariantNonhiddenFields cx ty variant with
                      | none => none
                      | some nh =>
                          match hoistZipFields cx nh fields with
                          | none => none
                          | some subpatterns =>
                              some (.mk ty (if adtDef.isEnum
                                then .variant vidx subpatterns
                                else .leaf subpatterns))
        | .ref _ =>
            match fields with
            | .nil => none
            | .cons f _ =>
                match hoistWitnessPat cx f with
                | none => none
                | some sub => some (.mk ty (.deref sub))
        | _ => none
    | .slice s =>
        match s.kind with
        | .fixedLen _ =>
            match hoistWPats cx fields with
            | none => none
            | some ps => some (.mk ty (.slice (Pats.ofList ps) .none .nil))
        | .varLen p _ =>
            match hoistWPats cx fields with
            | none => none
            | some ps =>
                let pre := ps.take p
                let rest := ps.drop p
                let (pre, rest) :=
                  if s.arrayLen.isSome then
                    (dropTrailingWilds pre, rest.dropWhile isWildPat)
                  else (pre, rest)
                some (.mk ty (.slice (Pats.ofList pre)
                  (.some (Pat.wildcardFromTy ty)) (Pats.ofList rest)))
    | .str value => some (.mk ty (.constant value))
    | .wildcard | .nonExhaustive | .hidden => some (.mk ty .wild)
    | .missing => none
    | .f32Range _ _ _ | .f64Range _ _ _ | .opaqueCtor _ | .or => none

/-- Hoist every field of a witness, in order. -/
def hoistWPats (cx : Cx) (ps : WPats) : Option (List Pat) :=
  match ps with
  | .nil => some []
  | .cons p ps =>
      match hoistWitnessPat cx p with
      | none => none
      | some q =>
          match hoistWPats cx ps with
          | none => none
          | some qs => some (q :: qs)

/-- The ADT case's
`list_variant_nonhidden_fields(..).zip(subpatterns).map(..)`: pair each
listed nonhidden field with the hoisted corresponding subpattern, stopping
at the shorter side. -/
def hoistZipFields (cx : Cx) (nh : List (Nat × Ty)) (fields : WPats) :
    Option FieldPats :=
  match nh, fields with
  | [], _ => some .nil
  | _ :: _, .nil => some .nil
  | q :: nh, .cons f fs =>
      match hoistWitnessPat cx f with
      | none => none
      | some sub =>
          match hoistZipFields cx nh fs with
          | none => none
          | some rest => some (.cons q.1 sub rest)

end

def FieldPats.length : FieldPats → Nat
  | .nil => 0
  | .cons _ _ ps => ps.length + 1

/-- The subpatterns of a field-pattern list, in order, without the field
indices. -/
def FieldPats.patsList : FieldPats → List Pat
  | .nil => []
  | .cons _ q ps => q :: ps.patsList

def WPats.append : WPats → WPats → WPats
  | .nil, qs => qs
  | .cons p ps, qs => .cons p (ps.append qs)

mutual

/-- Whether a deconstructed pattern tree contains no `Opaque`, no `Or` and
no float-range constructor (the exclusions named by the round-trip
property of §8). -/
def DeconstructedPat.noOpaqueOrFloat : DeconstructedPat → Bool
  | .mk ctor fields _ =>
      (match ctor with
       | .opaqueCtor _ | .or | .f32Range _ _ _ | .f64Range _ _ _ => false
       | _ => true) && fields.noOpaqueOrFloat

def DPats.noOpaqueOrFloat : DPats → Bool
  | .nil => true
  | .cons p ps => p.noOpaqueOrFloat && ps.noOpaqueOrFloat

end

/-- Surface range bounds whose lowered range hoists back to exactly the
same bounds: the lower bound is open or an in-range scalar, the upper
bound is open or an in-range scalar, the two are strictly ordered in the
encoded (bias-adjusted) order — which rules out empty and singleton
ranges — and they are not both open (a doubly open range hoists to a
wildcard). -/
def CanonicalRange (ty : Ty) (lo hi : PatRangeBoundary) : Prop :=
  match lo, hi with
  | .negInfinity, .finite (.scalar v) => v < 2 ^ ty.primitiveSizeBits
  | .finite (.scalar u), .finite (.scalar v) =>
      u < 2 ^ ty.primitiveSizeBits ∧ v < 2 ^ ty.primitiveSizeBits ∧
      (MaybeInfiniteInt.newFinite ty u).blt (MaybeInfiniteInt.newFinite ty v) = true
  | .finite (.scalar u), .posInfinity => u < 2 ^ ty.primitiveSizeBits
  | _, _ => False

/-- The boundary one past the finite encoded value `e` (what `plus_one`
returns on `Finite e`): an abbreviation used to reason about exclusive
upper bounds. -/
def finSucc (e : Nat) : MaybeInfiniteInt :=
  if e + 1 < 2 ^ 128 then .finite (e + 1) else .justAfterMax

/-- Integer-like types (`char` and the machine integers). -/
def Ty.isIntLike : Ty → Bool
  | .char => true
  | .int _ _ => true
  | .uint _ _ => true
  | _ => false

/-- No trailing wildcard subpattern (so the variable-length slice hoisting
has nothing to collapse on the left of the rest marker). -/
def NoTrailingWild (ps : Pats) : Prop :=
  ∀ q ∈ ps.toList.getLast?, isWildPat q = false

/-- No leading wildcard subpattern (nothing to collapse on the right of
the rest marker). -/
def NoLeadingWild (ps : Pats) : Prop :=
  ∀ q ∈ ps.toList.head?, isWildPat q = false

mutual

/-- The canonical fragment of surface patterns, on which lowering followed
by hoisting is the syntactic identity.  It contains wildcards; dereference
patterns at reference or box types; tuple and ADT patterns that spell out
exactly the visible fields in declaration order; evaluable boolean and
in-range integer/char scalar constants; inclusive, nonempty, non-singleton,
not-doubly-open integer/char ranges; and slice patterns in the shape the
hoister produces (everything in the prefix when there is no rest marker, a
rest subpattern that is a wildcard at the pattern's own type, and — for
arrays of known length, where the hoister collapses wildcards into the
rest marker — no wildcard adjacent to the rest marker).  Bindings,
ascriptions, inline constants, string/float/opaque constants, or-patterns,
never-patterns and error patterns are outside the fragment: lowering
erases them, so they cannot round-trip syntactically. -/
inductive CanonicalPat : Cx → Pat → Prop where
  | wild (cx : Cx) (ty : Ty) : CanonicalPat cx (.mk ty .wild)
  | derefRef (cx : Cx) (t : Ty) (sub : Pat) :
      CanonicalPat cx sub →
      CanonicalPat cx (.mk (.ref t) (.deref sub))
  | derefBox (cx : Cx) (adtDef : AdtDef) (arg0 : Option Ty) (sub : Pat) :
      adtDef.isBox = true →
      CanonicalPat cx sub →
      CanonicalPat cx (.mk (.adt adtDef arg0) (.deref sub))
  | leafTuple (cx : Cx) (fs : List Ty) (fps : FieldPats) :
      CanonicalFieldsConsec cx 0 fps →
      fps.length = fs.length →
      CanonicalPat cx (.mk (.tuple fs) (.leaf fps))
  | leafAdt (cx : Cx) (adtDef : AdtDef) (arg0 : Option Ty) (variant : VariantDef)
      (nh : List (Nat × Ty)) (fps : FieldPats) :
      adtDef.isBox = false → adtDef.isEnum = false →
      adtDef.variants.get? 0 = some variant →
      listVariantNonhiddenFields cx (.adt adtDef arg0) variant = some nh →
      CanonicalFieldsMatch cx nh fps →
      CanonicalPat cx (.mk (.adt adtDef arg0) (.leaf fps))
  | variantAdt (cx : Cx) (adtDef : AdtDef) (arg0 : Option Ty) (vidx : Nat)
      (variant : VariantDef) (nh : List (Nat × Ty)) (fps : FieldPats) :
      adtDef.isBox = false → adtDef.isEnum = true →
      adtDef.variants.get? vidx = some variant →
      listVariantNonhiddenFields cx (.adt adtDef arg0) variant = some nh →
      CanonicalFieldsMatch cx nh fps →
      CanonicalPat cx (.mk (.adt adtDef arg0) (.variant vidx fps))
  | constBool (cx : Cx) (bits : Nat) :
      bits = 0 ∨ bits = 1 →
      CanonicalPat cx (.mk .bool (.constant (.scalar bits)))
  | constInt (cx : Cx) (ty : Ty) (bits : Nat) :
      ty.isIntLike = true →
      bits < 2 ^ ty.primitiveSizeBits →
      CanonicalPat cx (.mk ty (.constant (.scalar bits)))
  | rangePat (cx : Cx) (ty : Ty) (lo hi : PatRangeBoundary) :
      ty.isIntLike = true →
      ty.primitiveSizeBits ≤ 128 →
      CanonicalRange ty lo hi →
      CanonicalPat cx (.mk ty (.range lo hi .included))
  | sliceFixed (cx : Cx) (elemTy : Ty) (pre : Pats) :
      CanonicalPats cx pre →
      CanonicalPat cx (.mk (.slice elemTy) (.slice pre .none .nil))
  | sliceVar (cx : Cx) (elemTy : Ty) (pre suf : Pats) :
      CanonicalPats cx pre → CanonicalPats cx suf →
      CanonicalPat cx (.mk (.slice elemTy)
        (.slice pre (.some (.mk (.slice elemTy) .wild)) suf))
  | arrayFixed (cx : Cx) (elemTy : Ty) (len : Nat) (pre : Pats) :
      CanonicalPats cx pre →
      CanonicalPat cx (.mk (.array elemTy (some len)) (.slice pre .none .nil))
  | arrayVar (cx : Cx) (elemTy : Ty) (len : Nat) (pre suf : Pats) :
      CanonicalPats cx pre → CanonicalPats cx suf →
      NoTrailingWild pre → NoLeadingWild suf →
      CanonicalPat cx (.mk (.array elemTy (some len))
        (.slice pre (.some (.mk (.array elemTy (some len)) .wild)) suf))

inductive CanonicalPats : Cx → Pats → Prop where
  | nil (cx : Cx) : CanonicalPats cx .nil
  | cons (cx : Cx) (p : Pat) (ps : Pats) :
      CanonicalPat cx p → CanonicalPats cx ps → CanonicalPats cx (.cons p ps)

/-- Field patterns covering the consecutive field indices `k, k + 1, ...`,
with canonical subpatterns (the canonical form of a tuple pattern: every
positional field written out, in order). -/
inductive CanonicalFieldsConsec : Cx → Nat → FieldPats → Prop where
  | nil (cx : Cx) (k : Nat) : CanonicalFieldsConsec cx k .nil
  | cons (cx : Cx) (k : Nat) (q : Pat) (fps : FieldPats) :
      CanonicalPat cx q → CanonicalFieldsConsec cx (k + 1) fps →
      CanonicalFieldsConsec cx k (.cons k q fps)

/-- Field patterns listing exactly the given nonhidden fields, in order,
with canonical subpatterns (the canonical form of a struct/variant
pattern). -/
inductive CanonicalFieldsMatch : Cx → List (Nat × Ty) → FieldPats → Prop where
  | nil (cx : Cx) : CanonicalFieldsMatch cx [] .nil
  | cons (cx : Cx) (f : Nat) (fty : Ty) (nh : List (Nat × Ty)) (q : Pat)
      (fps : FieldPats) :
      CanonicalPat cx q → CanonicalFieldsMatch cx nh fps →
      CanonicalFieldsMatch cx ((f, fty) :: nh) (.cons f q fps)

end

/-- The hidden-field rule exactly as the examined claim words it: a field
is dropped when it is "either non-public or belongs to a variant/struct
marked foreign-non-exhaustive, and the field's type is uninhabited". -/
def claimFieldHidden (cx : Cx) (adtDef : AdtDef) (variant : VariantDef)
    (field : FieldDef) : Bool :=
  (!field.visAccessible || (variant.fieldListNonExhaustive && !adtDef.isLocal))
    && cx.isUninhabited field.ty

/-- The claim's version of `list_variant_nonhidden_fields`, built from
`claimFieldHidden` (for the refutation of the claim as stated). -/
def listVariantNonhiddenFieldsClaim (cx : Cx) (ty : Ty) (variant : VariantDef) :
    Option (List (Nat × Ty)) :=
  match ty with
  | .adt adtDef _ =>
      some (variant.fields.enum.filterMap fun p =>
        if claimFieldHidden cx adtDef variant p.2 then none else some (p.1, p.2.ty))
  | _ => none

/-- The amended hidden-field rule: additionally the `exhaustive_patterns`
feature must be enabled, and a field of an enum variant never counts as
non-public (the source treats enum fields as always visible). -/
def amendedFieldHidden (cx : Cx) (adtDef : AdtDef) (variant : VariantDef)
    (field : FieldDef) : Bool :=
  cx.featureExhaustivePatterns && cx.isUninhabited field.ty &&
    (!(adtDef.isEnum || field.visAccessible)
      || (variant.fieldListNonExhaustive && !adtDef.isLocal))

/-- A default checking context for concrete evaluations: the
`exhaustive_patterns` feature on, every type inhabited. -/
def cxDefault : Cx := ⟨true, fun _ => false⟩

/-- A context with the `exhaustive_patterns` feature off and an oracle that
declares exactly the `never` type uninhabited. -/
def cxNoFeature : Cx :=
  ⟨false, fun t => match t with | .never => true | _ => false⟩

/-! Theorems. -/

/-- C10: when the `exhaustive_patterns` feature is disabled,
`list_variant_nonhidden_fields` hides nothing — for every ADT type and
variant it yields every declared field with its type, in declaration
order (so field hiding, and the uninhabitedness test it depends on, only
take effect under that feature gate). -/
theorem c10_no_feature_keeps_all_fields (g : Ty → Bool) (a : AdtDef)
    (arg0 : Option Ty) (v : VariantDef) :
    listVariantNonhiddenFields ⟨false, g⟩ (.adt a arg0) v =
      some (v.fields.enum.map fun q => (q.1, q.2.ty)) := by
  simp only [listVariantNonhiddenFields, Cx.isUninhabited, Bool.false_and,
    Bool.and_self, if_false, Bool.false_eq_true, ite_false, Option.some.injEq]
  exact congrFun (List.filterMap_eq_map _) _

/-- C3 (counterexample): the claim's hidden-field rule ("dropped exactly
when (non-public or foreign-non-exhaustive) and uninhabited") disagrees
with the code on a local struct with one non-public field of the
uninhabited `never` type when the `exhaustive_patterns` feature is
disabled: the code keeps the field, the claim's rule drops it. -/
theorem c3_counterexample :
    listVariantNonhiddenFields cxNoFeature
        (.adt (AdtDef.mk false false true false
          [VariantDef.mk [FieldDef.mk .never false] false true false false true]) none)
        (VariantDef.mk [FieldDef.mk .never false] false true false false true) ≠
      listVariantNonhiddenFieldsClaim cxNoFeature
        (.adt (AdtDef.mk false false true false
          [VariantDef.mk [FieldDef.mk .never false] false true false false true]) none)
        (VariantDef.mk [FieldDef.mk .never false] false true false false true) := by
  simp [listVariantNonhiddenFields, listVariantNonhiddenFieldsClaim,
    claimFieldHidden, cxNoFeature, Cx.isUninhabited, List.enum,
    VariantDef.fields, FieldDef.ty, FieldDef.visAccessible,
    VariantDef.fieldListNonExhaustive, AdtDef.isLocal, AdtDef.isEnum]

/-- C3 (amended): a declared field is dropped by
`list_variant_nonhidden_fields` exactly when the `exhaustive_patterns`
feature is enabled, the field's type is uninhabited, and the field is
either not visible (non-public and not an enum-variant field — enum
fields always count as visible) or belongs to a variant/struct marked
foreign-non-exhaustive; every other field is kept, in declaration
order. -/
theorem c3_amended_hidden_field_rule (cx : Cx) (a : AdtDef) (arg0 : Option Ty)
    (v : VariantDef) :
    listVariantNonhiddenFields cx (.adt a arg0) v =
      some (v.fields.enum.filterMap fun q =>
        if amendedFieldHidden cx a v q.2 then none else some (q.1, q.2.ty)) := by
  simp only [listVariantNonhiddenFields, amendedFieldHidden, Bool.and_assoc]

/-- C6 (counterexample): a witness pattern headed by `Missing` does not
hoist to the wildcard pattern — `hoist_witness_pat` treats it as a fatal
error ("trying to convert a `Missing` constructor into a `Pat`; this is
probably a bug"). -/
theorem c6_counterexample :
    hoistWitnessPat cxDefault (.mk .missing .nil .bool) ≠
      some (Pat.mk .bool .wild) := by
  simp [hoistWitnessPat]

/-- C6 (amended): witness patterns headed by `NonExhaustive`, `Hidden` or
`Wildcard` hoist to the surface wildcard pattern at their type; a
`Missing` head is a fatal error (`bug!`), not a wildcard. -/
theorem c6_amended_synthetic_heads_hoist (cx : Cx) (fields : WPats) (ty : Ty) :
    hoistWitnessPat cx (.mk .wildcard fields ty) = some (.mk ty .wild) ∧
    hoistWitnessPat cx (.mk .nonExhaustive fields ty) = some (.mk ty .wild) ∧
    hoistWitnessPat cx (.mk .hidden fields ty) = some (.mk ty .wild) ∧
    hoistWitnessPat cx (.mk .missing fields ty) = none := by
  refine ⟨?_, ?_, ?_, ?_⟩ <;> simp [hoistWitnessPat]

/-- C9: when `hoist_witness_pat` renders a variable-length slice witness,
the prefix is the first `p` hoisted fields and the suffix the rest; the
trailing wildcards of the prefix and the leading wildcards of the suffix
are collapsed into the rest marker exactly when the array length is
statically known (`arrayLen.isSome`), and nothing is removed when it is
unknown. -/
theorem c9_slice_wildcard_collapse (cx : Cx) (al : Option Nat) (p q : Nat)
    (fields : WPats) (ty : Ty) :
    hoistWitnessPat cx (.mk (.slice ⟨al, .varLen p q⟩) fields ty) =
      match hoistWPats cx fields with
      | none => none
      | some ps =>
          some (.mk ty (.slice
            (Pats.ofList (if al.isSome then dropTrailingWilds (ps.take p)
              else ps.take p))
            (.some (Pat.wildcardFromTy ty))
            (Pats.ofList (if al.isSome then (ps.drop p).dropWhile isWildPat
              else ps.drop p)))) := by
  simp only [hoistWitnessPat]
  cases hoistWPats cx fields with
  | none => rfl
  | some ps => cases al <;> simp

/-- C5: for an enum type, `ctors_for_ty` returns `NoConstructors` exactly
when the enum has zero declared variants and is not foreign-extensible
(declared `#[non_exhaustive]` in another crate); otherwise it returns
`Variants`, tagging each variant `Empty` if visibly uninhabited, else
`Hidden` if unstable or foreign-doc-hidden, else `Visible`
(`variantVisibilityOf`), with the `non_exhaustive` flag set exactly for
foreign extensible enums. -/
theorem c5_enum_constructor_set (cx : Cx) (isBox isLocal nonExh : Bool)
    (vs : List VariantDef) (arg0 : Option Ty) :
    ctorsForTy cx (.adt (AdtDef.mk true isBox isLocal nonExh vs) arg0) =
      some (if vs.isEmpty && !(nonExh && !isLocal) then .noConstructors
        else .variants (vs.map variantVisibilityOf) (nonExh && !isLocal)) ∧
    (ctorsForTy cx (.adt (AdtDef.mk true isBox isLocal nonExh vs) arg0) =
        some .noConstructors ↔
      vs = [] ∧ ¬(nonExh = true ∧ isLocal = false)) := by
  constructor
  · simp only [ctorsForTy, isForeignNonExhaustiveEnum, AdtDef.isEnum,
      AdtDef.variantListNonExhaustive, AdtDef.isLocal, AdtDef.variants,
      Bool.true_and, if_true]
    split <;> rfl
  · simp only [ctorsForTy, isForeignNonExhaustiveEnum, AdtDef.isEnum,
      AdtDef.variantListNonExhaustive, AdtDef.isLocal, AdtDef.variants,
      Bool.true_and, if_true]
    cases vs <;> cases nonExh <;> cases isLocal <;> simp

/-- C1: for every constructor other than `Or` and every type for which the
pair is defined, the wildcard-field list returned by
`ctor_wildcard_fields` has exactly `ctor_arity` elements (the "must be
kept in sync" contract of the two functions). -/
theorem c1_wildcard_fields_length_eq_arity (cx : Cx) (ctor : Constructor)
    (ty : Ty) (fs : List DeconstructedPat) (k : Nat) (hor : ctor ≠ .or)
    (hw : ctorWildcardFields cx ctor ty = some fs)
    (ha : ctorArity cx ctor ty = some k) :
    fs.length = k := by
  have adtStep : ∀ (c : Constructor) (adtDef : AdtDef) (arg0 : Option Ty),
      (if adtDef.isBox = true then
        match arg0 with
        | some t => some [DeconstructedPat.wildcard t]
        | none => none
      else
        match variantIndexForAdt c adtDef with
        | none => none
        | some idx =>
          match adtDef.variants.get? idx with
          | none => none
          | some variant =>
            match listVariantNonhiddenFields cx (Ty.adt adtDef arg0) variant with
            | none => none
            | some nh => some (List.map (fun p => DeconstructedPat.wildcard p.2) nh)) = some fs →
      (if adtDef.isBox = true then some 1
      else
        match variantIndexForAdt c adtDef with
        | none => none
        | some idx =>
          match adtDef.variants.get? idx with
          | none => none
          | some variant =>
            match listVariantNonhiddenFields cx (Ty.adt adtDef arg0) variant with
            | none => none
            | some nh => some nh.length) = some k →
      fs.length = k := by
    intro c adtDef arg0 hw ha
    by_cases hb : adtDef.isBox = true
    · rw [if_pos hb] at hw ha
      cases arg0
      · exact Option.noConfusion hw
      · injection hw with hw; injection ha with ha; subst hw; subst ha; rfl
    · rw [if_neg hb] at hw ha
      cases hv : variantIndexForAdt c adtDef with
      | none => rw [hv] at hw; exact Option.noConfusion hw
      | some vidx =>
        simp only [hv] at hw ha
        cases hg : adtDef.variants.get? vidx with
        | none => rw [hg] at hw; exact Option.noConfusion hw
        | some variant =>
          simp only [hg] at hw ha
          cases hn : listVariantNonhiddenFields cx (Ty.adt adtDef arg0) variant with
          | none => rw [hn] at hw; exact Option.noConfusion hw
          | some nh =>
            simp only [hn, Option.some.injEq] at hw ha
            subst hw; subst ha; simp
  cases ctor <;> try (exact absurd rfl hor)
  case single =>
    cases ty <;> simp only [ctorWildcardFields, ctorArity] at hw ha <;>
      try exact Option.noConfusion hw
    case tuple ts =>
      injection hw with hw; injection ha with ha
      subst hw; subst ha; simp [allocWildcardSlice]
    case ref t =>
      injection hw with hw; injection ha with ha
      subst hw; subst ha; simp [allocWildcardSlice]
    case adt adtDef arg0 => exact adtStep .single adtDef arg0 hw ha
  case variant idx =>
    cases ty <;> simp only [ctorWildcardFields, ctorArity] at hw ha <;>
      try exact Option.noConfusion hw
    case tuple ts =>
      injection hw with hw; injection ha with ha
      subst hw; subst ha; simp [allocWildcardSlice]
    case ref t =>
      injection hw with hw; injection ha with ha
      subst hw; subst ha; simp [allocWildcardSlice]
    case adt adtDef arg0 => exact adtStep (.variant idx) adtDef arg0 hw ha
  case slice s =>
    cases ty <;> simp only [ctorWildcardFields, ctorArity] at hw ha <;>
      try exact Option.noConfusion hw
    all_goals
      injection hw with hw; injection ha with ha; subst hw; subst ha; simp
  all_goals
    cases ty <;> simp only [ctorWildcardFields, ctorArity] at hw ha <;>
      (injection hw with hw; injection ha with ha; subst hw; subst ha; rfl)

/-- C1 (witness): the arity-consistency theorem applied at the `Single`
constructor over a two-field tuple type. -/
theorem c1_wildcard_fields_length_eq_arity_witness :
    Constructor.single ≠ Constructor.or ∧
    ctorWildcardFields cxDefault .single (.tuple [.bool, .char]) =
      some (allocWildcardSlice [.bool, .char]) ∧
    ctorArity cxDefault .single (.tuple [.bool, .char]) = some 2 ∧
    (allocWildcardSlice [.bool, .char]).length = 2 :=
  ⟨by decide, rfl, rfl,
   c1_wildcard_fields_length_eq_arity cxDefault .single (.tuple [.bool, .char])
     (allocWildcardSlice [.bool, .char]) 2 (by decide) rfl rfl⟩

/-- Bit arithmetic of the signed bias: the encoded form of a signed type's
maximum (`0b0111..1 XOR 0b1000..0`) is the all-ones word `2 ^ w - 1`. -/
theorem two_pow_sub_one_xor_two_pow (w : Nat) (hw : 0 < w) :
    (2 ^ (w - 1) - 1) ^^^ 2 ^ (w - 1) = 2 ^ w - 1 := by
  apply Nat.eq_of_testBit_eq
  intro i
  rw [Nat.testBit_xor, Nat.testBit_two_pow_sub_one, Nat.testBit_two_pow_sub_one,
    Nat.testBit_two_pow]
  rcases lt_trichotomy i (w - 1) with h | h | h
  · have ha : i < w := by omega
    have hb : w - 1 ≠ i := by omega
    simp [h, ha, hb]
  · have ha : i < w := by omega
    have hb : ¬ i < w - 1 := by omega
    simp [h, ha, hb]
    omega
  · have ha : ¬ i < w := by omega
    have hb : ¬ i < w - 1 := by omega
    have hc : w - 1 ≠ i := by omega
    simp [ha, hb, hc]

/-- C2: the integer ranges produced by `ctors_for_ty`.  For the
pointer-sized signed type both bounds are the infinity sentinels; for the
pointer-sized unsigned type the range is `Finite 0` to `PosInfinity` — so
the unobservable true extremes (`isize::MIN`/`isize::MAX`/`usize::MAX`,
encoded `Finite 0` / `Finite (2 ^ w - 1)`) never appear as finite bounds.
For every non-pointer-sized integer type the range is the single full
finite range determined by the bit width: in the bias-adjusted encoding it
runs from `Finite 0` up to (exclusively) one past `Finite (2 ^ w - 1)`,
covering exactly the `2 ^ w` values of the type (the exclusive bound is
the `JustAfterMax` sentinel when `w = 128`, where `2 ^ w` overflows
`u128`), and `range_2` is absent. -/
theorem c2_integer_constructor_ranges (cx : Cx) (w : Nat) (h1 : 0 < w)
    (h2 : w ≤ 128) :
    ctorsForTy cx (.int true w) =
      some (.integers ⟨.negInfinity, .posInfinity⟩ none) ∧
    ctorsForTy cx (.uint true w) =
      some (.integers ⟨.finite 0, .posInfinity⟩ none) ∧
    ctorsForTy cx (.int false w) =
      some (.integers ⟨.finite 0,
        if w = 128 then .justAfterMax else .finite (2 ^ w)⟩ none) ∧
    ctorsForTy cx (.uint false w) =
      some (.integers ⟨.finite 0,
        if w = 128 then .justAfterMax else .finite (2 ^ w)⟩ none) := by
  have he : 2 ^ w - 1 + 1 = 2 ^ w := by
    have : 0 < 2 ^ w := Nat.pos_pow_of_pos w (by omega)
    omega
  have hpos : 0 < 2 ^ w := Nat.pos_pow_of_pos w (by omega)
  refine ⟨rfl, ?_, ?_, ?_⟩
  · simp [ctorsForTy, MaybeInfiniteInt.newFinite, MaybeInfiniteInt.signedBias]
  · simp only [ctorsForTy, IntRange.fromRange, MaybeInfiniteInt.newFinite,
      MaybeInfiniteInt.signedBias, MaybeInfiniteInt.plusOne, if_false]
    simp only [Nat.xor_self, two_pow_sub_one_xor_two_pow w h1, he]
    by_cases hw : w = 128
    · subst hw
      simp [MaybeInfiniteInt.blt]
    · have hlt : 2 ^ w < 340282366920938463463374607431768211456 := by
        calc 2 ^ w < 2 ^ 128 := Nat.pow_lt_pow_right (by omega) (by omega)
          _ = 340282366920938463463374607431768211456 := by norm_num
      simp [hlt, hpos, hw, MaybeInfiniteInt.blt]
  · simp only [ctorsForTy, IntRange.fromRange, MaybeInfiniteInt.newFinite,
      MaybeInfiniteInt.signedBias, MaybeInfiniteInt.plusOne, if_false]
    simp only [Nat.xor_zero, he]
    by_cases hw : w = 128
    · subst hw
      simp [MaybeInfiniteInt.blt]
    · have hlt : 2 ^ w < 340282366920938463463374607431768211456 := by
        calc 2 ^ w < 2 ^ 128 := Nat.pow_lt_pow_right (by omega) (by omega)
          _ = 340282366920938463463374607431768211456 := by norm_num
      simp [hlt, hpos, hw, MaybeInfiniteInt.blt]

/-- C2 (witness): the integer-range theorem applied at the 64-bit width. -/
theorem c2_integer_constructor_ranges_witness :
    (0 < 64 ∧ 64 ≤ 128) ∧
    (ctorsForTy cxDefault (.int true 64) =
        some (.integers ⟨.negInfinity, .posInfinity⟩ none) ∧
      ctorsForTy cxDefault (.uint true 64) =
        some (.integers ⟨.finite 0, .posInfinity⟩ none) ∧
      ctorsForTy cxDefault (.int false 64) =
        some (.integers ⟨.finite 0,
          if 64 = 128 then .justAfterMax else .finite (2 ^ 64)⟩ none) ∧
      ctorsForTy cxDefault (.uint false 64) =
        some (.integers ⟨.finite 0,
          if 64 = 128 then .justAfterMax else .finite (2 ^ 64)⟩ none)) :=
  ⟨⟨by omega, by omega⟩,
   c2_integer_constructor_ranges cxDefault 64 (by omega) (by omega)⟩

theorem pats_all_append (f : Pat → Bool) :
    ∀ (a b : Pats), (a.append b).all f = (a.all f && b.all f)
  | .nil, b => by simp [Pats.append, Pats.all]
  | .cons p ps, b => by
      simp [Pats.append, Pats.all, pats_all_append f ps b, Bool.and_assoc]

mutual

theorem expandOrPat_all_not_or (p : Pat) :
    (expandOrPat p).all (fun q => !q.isOr) = true :=
  match p with
  | .mk _ .wild => rfl
  | .mk _ .bindingNone => rfl
  | .mk _ (.bindingSome _) => rfl
  | .mk _ (.ascribeUserType _) => rfl
  | .mk _ (.inlineConstant _) => rfl
  | .mk _ (.deref _) => rfl
  | .mk _ (.leaf _) => rfl
  | .mk _ (.variant _ _) => rfl
  | .mk _ (.constant _) => rfl
  | .mk _ (.range _ _ _) => rfl
  | .mk _ (.array _ _ _) => rfl
  | .mk _ (.slice _ _ _) => rfl
  | .mk _ (.or pats) => expandOrPatList_all_not_or pats
  | .mk _ .never => rfl
  | .mk _ .error => rfl

theorem expandOrPatList_all_not_or (ps : Pats) :
    (expandOrPatList ps).all (fun q => !q.isOr) = true :=
  match ps with
  | .nil => rfl
  | .cons p ps => by
      show ((expandOrPat p).append (expandOrPatList ps)).all (fun q => !q.isOr) = true
      rw [pats_all_append, expandOrPat_all_not_or p, expandOrPatList_all_not_or ps]
      rfl

end

theorem lowerPats_append (cx : Cx) :
    ∀ (a b : Pats) (n : Nat),
      lowerPats cx (a.append b) n =
        (match lowerPats cx a n with
         | none => none
         | some (ds, n') =>
             match lowerPats cx b n' with
             | none => none
             | some (es, n'') => some (ds ++ es, n''))
  | .nil, b, n => by
      cases h : lowerPats cx b n <;> simp [Pats.append, lowerPats, h]
  | .cons p ps, b, n => by
      show lowerPats cx (.cons p (ps.append b)) n = _
      simp only [lowerPats]
      cases hp : lowerPat cx p n with
      | none => rfl
      | some r =>
          obtain ⟨d, n1⟩ := r
          simp only [lowerPats_append cx ps b n1]
          cases ha : lowerPats cx ps n1 with
          | none => rfl
          | some r2 =>
              obtain ⟨ds, n2⟩ := r2
              cases hb : lowerPats cx b n2 <;> simp [hb]

theorem expandOrPat_not_or (p : Pat) (h : p.isOr = false) :
    expandOrPat p = .cons p .nil := by
  obtain ⟨t, k⟩ := p
  cases k <;> first
    | rfl
    | exact absurd h (by simp [Pat.isOr])

theorem lowerOrPats_cons_not_or (cx : Cx) (p : Pat) (ps : Pats) (n : Nat)
    (h : p.isOr = false) :
    lowerOrPats cx (.cons p ps) n =
      (match lowerPat cx p n with
       | none => none
       | some (d, n') =>
           match lowerOrPats cx ps n' with
           | none => none
           | some (ds, n'') => some (d :: ds, n'')) := by
  obtain ⟨t, k⟩ := p
  cases k <;> first
    | rfl
    | exact absurd h (by simp [Pat.isOr])

theorem lowerOrPats_eq_expand_step (cx : Cx) (p : Pat) (ps : Pats) (n : Nat)
    (h : p.isOr = false)
    (ih : ∀ m, lowerOrPats cx ps m = lowerPats cx (expandOrPatList ps) m) :
    lowerOrPats cx (.cons p ps) n =
      lowerPats cx (expandOrPatList (.cons p ps)) n := by
  rw [lowerOrPats_cons_not_or cx p ps n h]
  rw [show expandOrPatList (.cons p ps) =
        (expandOrPat p).append (expandOrPatList ps) from rfl]
  rw [expandOrPat_not_or p h]
  rw [show (Pats.cons p Pats.nil).append (expandOrPatList ps) =
        .cons p (expandOrPatList ps) from rfl]
  show _ = (match lowerPat cx p n with
            | none => none
            | some (d, n') =>
                match lowerPats cx (expandOrPatList ps) n' with
                | none => none
                | some (ds, n'') => some (d :: ds, n''))
  simp only [ih]

/-- The in-place flattening performed by the or-pattern case of
`lower_pat` lowers exactly the `expand_or_pat` alternative list. -/
theorem lowerOrPats_eq_expand (cx : Cx) : ∀ (ps : Pats) (n : Nat),
    lowerOrPats cx ps n = lowerPats cx (expandOrPatList ps) n
  | .nil, _ => rfl
  | .cons (.mk t .wild) ps, n =>
      lowerOrPats_eq_expand_step cx _ ps n rfl (fun m => lowerOrPats_eq_expand cx ps m)
  | .cons (.mk t .bindingNone) ps, n =>
      lowerOrPats_eq_expand_step cx _ ps n rfl (fun m => lowerOrPats_eq_expand cx ps m)
  | .cons (.mk t (.bindingSome s)) ps, n =>
      lowerOrPats_eq_expand_step cx _ ps n rfl (fun m => lowerOrPats_eq_expand cx ps m)
  | .cons (.mk t (.ascribeUserType s)) ps, n =>
      lowerOrPats_eq_expand_step cx _ ps n rfl (fun m => lowerOrPats_eq_expand cx ps m)
  | .cons (.mk t (.inlineConstant s)) ps, n =>
      lowerOrPats_eq_expand_step cx _ ps n rfl (fun m => lowerOrPats_eq_expand cx ps m)
  | .cons (.mk t (.deref s)) ps, n =>
      lowerOrPats_eq_expand_step cx _ ps n rfl (fun m => lowerOrPats_eq_expand cx ps m)
  | .cons (.mk t (.leaf fps)) ps, n =>
      lowerOrPats_eq_expand_step cx _ ps n rfl (fun m => lowerOrPats_eq_expand cx ps m)
  | .cons (.mk t (.variant i fps)) ps, n =>
      lowerOrPats_eq_expand_step cx _ ps n rfl (fun m => lowerOrPats_eq_expand cx ps m)
  | .cons (.mk t (.constant v)) ps, n =>
      lowerOrPats_eq_expand_step cx _ ps n rfl (fun m => lowerOrPats_eq_expand cx ps m)
  | .cons (.mk t (.range l h r)) ps, n =>
      lowerOrPats_eq_expand_step cx _ ps n rfl (fun m => lowerOrPats_eq_expand cx ps m)
  | .cons (.mk t (.array a b c)) ps, n =>
      lowerOrPats_eq_expand_step cx _ ps n rfl (fun m => lowerOrPats_eq_expand cx ps m)
  | .cons (.mk t (.slice a b c)) ps, n =>
      lowerOrPats_eq_expand_step cx _ ps n rfl (fun m => lowerOrPats_eq_expand cx ps m)
  | .cons (.mk t .never) ps, n =>
      lowerOrPats_eq_expand_step cx _ ps n rfl (fun m => lowerOrPats_eq_expand cx ps m)
  | .cons (.mk t .error) ps, n =>
      lowerOrPats_eq_expand_step cx _ ps n rfl (fun m => lowerOrPats_eq_expand cx ps m)
  | .cons (.mk t (.or inner)) ps, n => by
      show (match lowerOrPats cx inner n with
            | none => none
            | some (ds1, n') =>
                match lowerOrPats cx ps n' with
                | none => none
                | some (ds2, n'') => some (ds1 ++ ds2, n'')) = _
      rw [show expandOrPatList (Pats.cons (.mk t (.or inner)) ps) =
            (expandOrPatList inner).append (expandOrPatList ps) from rfl]
      rw [lowerPats_append]
      rw [lowerOrPats_eq_expand cx inner n]
      simp only [lowerOrPats_eq_expand cx ps]

/-- C7: lowering an or-pattern produces the `Or` constructor whose fields
are the lowered alternatives of the fully flattened (`expand_or_pat`)
alternative list, and no element of that flattened list is itself an
or-pattern (nested or-patterns collapse to one level). -/
theorem c7_or_pattern_flattening (cx : Cx) (ty : Ty) (pats : Pats) (n : Nat) :
    lowerPat cx (.mk ty (.or pats)) n =
      (match lowerPats cx (expandOrPatList pats) n with
       | none => none
       | some (ds, n') => some (.mk .or (DPats.ofList ds) ty, n')) ∧
    (expandOrPatList pats).all (fun q => !q.isOr) = true := by
  constructor
  · show (match lowerOrPats cx pats n with
          | none => none
          | some (ds, n') =>
              some (DeconstructedPat.mk .or (DPats.ofList ds) ty, n')) = _
    rw [lowerOrPats_eq_expand cx pats n]
  · exact expandOrPatList_all_not_or pats

/-- C8: a boolean, integer or char constant pattern lowers to the exact
`Bool`/`IntRange` constructor with zero fields when the constant is
evaluable, and to `Opaque` with a fresh id when it is not; an error
pattern always lowers to `Opaque` with a fresh id.  "Fresh" is visible in
the statement as: the minted id is the current value `n` of the session's
monotonically increasing opaque-id counter, which is advanced to `n + 1`
(so no id is ever reused within the session). -/
theorem c8_constant_lowering (cx : Cx) (v : ConstValue) (n : Nat) (ps : Bool)
    (w : Nat) (ty : Ty) :
    lowerPat cx (.mk .bool (.constant v)) n =
      some (match v.tryEvalBool with
        | some b => (.mk (.bool b) .nil .bool, n)
        | none => (.mk (.opaqueCtor n) .nil .bool, n + 1)) ∧
    lowerPat cx (.mk .char (.constant v)) n =
      some (match v.tryEvalBits with
        | some bits => (.mk (.intRange (IntRange.fromBits .char bits)) .nil .char, n)
        | none => (.mk (.opaqueCtor n) .nil .char, n + 1)) ∧
    lowerPat cx (.mk (.int ps w) (.constant v)) n =
      some (match v.tryEvalBits with
        | some bits =>
            (.mk (.intRange (IntRange.fromBits (.int ps w) bits)) .nil (.int ps w), n)
        | none => (.mk (.opaqueCtor n) .nil (.int ps w), n + 1)) ∧
    lowerPat cx (.mk (.uint ps w) (.constant v)) n =
      some (match v.tryEvalBits with
        | some bits =>
            (.mk (.intRange (IntRange.fromBits (.uint ps w) bits)) .nil (.uint ps w), n)
        | none => (.mk (.opaqueCtor n) .nil (.uint ps w), n + 1)) ∧
    lowerPat cx (.mk ty .error) n = some (.mk (.opaqueCtor n) .nil ty, n + 1) := by
  refine ⟨?_, ?_, ?_, ?_, ?_⟩
  · cases hv : v.tryEvalBool <;> simp [lowerPat, hv]
  · cases hv : v.tryEvalBits <;> simp [lowerPat, hv]
  · cases hv : v.tryEvalBits <;> simp [lowerPat, hv]
  · cases hv : v.tryEvalBits <;> simp [lowerPat, hv]
  · cases ty <;> rfl

/-- C4 (counterexample): the lowering/hoisting round trip is not the
syntactic identity even on patterns whose lowering contains no `Opaque`,
no `Or` and no float range.  The binding pattern `x : bool` (a `Binding`
with no subpattern) lowers to a wildcard `DeconstructedPat`, and hoisting
the witness form of that lowering yields the wildcard pattern `_`, which
is a structurally different surface pattern (a different node kind) from
the original binding. -/
theorem c4_counterexample :
    lowerPat cxDefault (.mk .bool .bindingNone) 0 =
      some (.mk .wildcard .nil .bool, 0) ∧
    (DeconstructedPat.mk .wildcard .nil .bool).noOpaqueOrFloat = true ∧
    hoistWitnessPat cxDefault
        (DeconstructedPat.mk .wildcard .nil .bool).toWitness ≠
      some (.mk .bool .bindingNone) :=
  ⟨rfl, rfl, by
    simp [hoistWitnessPat, DeconstructedPat.toWitness, DPats.toWitness]⟩

end RustcPatternAnalysis
namespace RustcPatternAnalysis

theorem take_set_append (a : DeconstructedPat) :
    ∀ (l : List DeconstructedPat) (k : Nat), k < l.length →
      (l.set k a).take (k + 1) = l.take k ++ [a]
  | [], k, h => by simp at h
  | x :: xs, 0, _ => by simp
  | x :: xs, k + 1, h => by
      simp only [List.set, List.take, List.cons_append]
      rw [take_set_append a xs k (by simpa using h)]

theorem pats_ofList_toList : ∀ (ps : Pats), Pats.ofList ps.toList = ps
  | .nil => rfl
  | .cons p ps => by
      simp only [Pats.toList, Pats.ofList, pats_ofList_toList ps]

theorem pats_length_toList : ∀ (ps : Pats), ps.toList.length = ps.length
  | .nil => rfl
  | .cons p ps => by
      simp only [Pats.toList, List.length_cons, pats_length_toList ps, Pats.length]

theorem dropWhile_head_false {l : List Pat}
    (h : ∀ q ∈ l.head?, isWildPat q = false) :
    l.dropWhile isWildPat = l := by
  cases l with
  | nil => rfl
  | cons x xs =>
      have hx : isWildPat x = false := h x rfl
      simp [List.dropWhile, hx]

theorem dropTrailingWilds_eq_self {l : List Pat}
    (h : ∀ q ∈ l.getLast?, isWildPat q = false) :
    dropTrailingWilds l = l := by
  unfold dropTrailingWilds
  rw [dropWhile_head_false, List.reverse_reverse]
  intro q hq
  exact h q (by rwa [List.head?_reverse] at hq)

theorem toWitness_ofList_cons (d : DeconstructedPat) (ds : List DeconstructedPat) :
    (DPats.ofList (d :: ds)).toWitness = .cons d.toWitness (DPats.ofList ds).toWitness := rfl

theorem hoistWPats_ofList_append (cx : Cx) :
    ∀ (a b : List DeconstructedPat),
      hoistWPats cx (DPats.ofList (a ++ b)).toWitness =
        (match hoistWPats cx (DPats.ofList a).toWitness with
         | none => none
         | some xs =>
             match hoistWPats cx (DPats.ofList b).toWitness with
             | none => none
             | some ys => some (xs ++ ys))
  | [], b => by
      cases h : hoistWPats cx (DPats.ofList b).toWitness <;>
        simp [DPats.ofList, DPats.toWitness, hoistWPats, h]
  | d :: ds, b => by
      show hoistWPats cx (.cons d.toWitness (DPats.ofList (ds ++ b)).toWitness) = _
      simp only [hoistWPats, toWitness_ofList_cons, hoistWPats_ofList_append cx ds b]
      cases hd : hoistWitnessPat cx d.toWitness with
      | none => rfl
      | some q =>
          cases ha : hoistWPats cx (DPats.ofList ds).toWitness with
          | none => rfl
          | some xs =>
              cases hb : hoistWPats cx (DPats.ofList b).toWitness <;> simp [hb]

theorem xor_involution (a b : Nat) : a ^^^ b ^^^ b = a := Nat.xor_cancel_right b a

theorem hoistPatRange_fromBits (cx : Cx) (ty : Ty) (bits : Nat)
    (h : bits < 2 ^ ty.primitiveSizeBits) :
    hoistPatRange cx (IntRange.fromBits ty bits) ty =
      some (.mk ty (.constant (.scalar bits))) := by
  unfold IntRange.fromBits hoistPatRange
  simp only [MaybeInfiniteInt.newFinite]
  set e := bits ^^^ MaybeInfiniteInt.signedBias ty with he
  by_cases hlt : e + 1 < 2 ^ 128
  · simp only [MaybeInfiniteInt.plusOne, hlt, if_pos, Option.getD_some]
    rw [if_neg (by simp), if_pos (by simp [IntRange.isSingleton, MaybeInfiniteInt.plusOne]; omega)]
    simp only [hoistPatRangeBdy]
    rw [he, xor_involution, if_pos h]
    rfl
  · simp only [MaybeInfiniteInt.plusOne, hlt, if_neg, Option.getD_some]
    rw [if_neg (by simp), if_pos (by simp [IntRange.isSingleton, MaybeInfiniteInt.plusOne]; omega)]
    simp only [hoistPatRangeBdy]
    rw [he, xor_involution, if_pos h]
    rfl

end RustcPatternAnalysis
namespace RustcPatternAnalysis

theorem signedBias_lt (ty : Ty) (h : ty.primitiveSizeBits ≤ 128) :
    MaybeInfiniteInt.signedBias ty < 2 ^ 128 := by
  have hp : (0 : Nat) < 2 ^ 128 := Nat.pos_pow_of_pos _ (by omega)
  cases ty
  case int p bits =>
    simp only [Ty.primitiveSizeBits] at h
    simp only [MaybeInfiniteInt.signedBias]
    exact Nat.pow_lt_pow_right (by omega) (by omega)
  all_goals exact hp

theorem enc_lt (ty : Ty) (bits : Nat) (hsz : ty.primitiveSizeBits ≤ 128)
    (hb : bits < 2 ^ ty.primitiveSizeBits) :
    bits ^^^ MaybeInfiniteInt.signedBias ty < 2 ^ 128 := by
  have h1 : bits < 2 ^ 128 :=
    lt_of_lt_of_le hb (Nat.pow_le_pow_right (by omega) hsz)
  exact Nat.xor_lt_two_pow h1 (signedBias_lt ty hsz)

theorem plusOne_finite (e : Nat) :
    (MaybeInfiniteInt.finite e).plusOne = some (finSucc e) := by
  simp only [MaybeInfiniteInt.plusOne, finSucc]
  split <;> rfl

theorem finSucc_beq_posInf (e : Nat) :
    (finSucc e == MaybeInfiniteInt.posInfinity) = false := by
  unfold finSucc; split <;> rfl

theorem finSucc_beq_negInf (e : Nat) :
    (MaybeInfiniteInt.negInfinity == finSucc e) = false := by
  unfold finSucc; split <;> rfl

theorem finSucc_beq_finZero (e : Nat) :
    (finSucc e == MaybeInfiniteInt.finite 0) = false := by
  unfold finSucc; split
  · simp
  · rfl

theorem finSucc_minusOne (e : Nat) (he : e < 2 ^ 128) :
    (finSucc e).minusOne = some (.finite e) := by
  have hnum : (2 : Nat) ^ 128 = 340282366920938463463374607431768211456 := by norm_num
  unfold finSucc; split
  · simp [MaybeInfiniteInt.minusOne]
  · rename_i h
    simp [MaybeInfiniteInt.minusOne]
    omega

theorem blt_negInf_finSucc (e : Nat) :
    MaybeInfiniteInt.blt .negInfinity (finSucc e) = true := by
  unfold finSucc; split <;> rfl

theorem blt_finite_finSucc (a e : Nat) (h : a ≤ e) :
    MaybeInfiniteInt.blt (.finite a) (finSucc e) = true := by
  unfold finSucc; split
  · simp [MaybeInfiniteInt.blt]; omega
  · rfl

theorem singleton_negInf_finSucc (e : Nat) :
    IntRange.isSingleton ⟨.negInfinity, finSucc e⟩ = false := by
  simp only [IntRange.isSingleton, MaybeInfiniteInt.plusOne]
  exact finSucc_beq_negInf e

theorem singleton_finite_posInf (a : Nat) :
    IntRange.isSingleton ⟨.finite a, .posInfinity⟩ = false := by
  simp only [IntRange.isSingleton, plusOne_finite]
  exact finSucc_beq_posInf a

theorem singleton_finite_finSucc (a e : Nat) (hne : a ≠ e) (ha : a < 2 ^ 128)
    (he : e < 2 ^ 128) :
    IntRange.isSingleton ⟨.finite a, finSucc e⟩ = false := by
  have hnum : (2 : Nat) ^ 128 = 340282366920938463463374607431768211456 := by norm_num
  simp only [IntRange.isSingleton, plusOne_finite]
  unfold finSucc
  split <;> split <;> (simp_all; try omega)

theorem hoistBdy_decode (cx : Cx) (ty : Ty) (bits : Nat)
    (h : bits < 2 ^ ty.primitiveSizeBits) :
    hoistPatRangeBdy cx (.finite (bits ^^^ MaybeInfiniteInt.signedBias ty)) ty =
      .finite (.scalar bits) := by
  simp only [hoistPatRangeBdy]
  rw [xor_involution, if_pos h]

end RustcPatternAnalysis
namespace RustcPatternAnalysis

theorem fromRange_included (lo hi : MaybeInfiniteInt) :
    IntRange.fromRange lo hi .included =
      match hi.plusOne with
      | none => none
      | some h => if lo.blt h then some ⟨lo, h⟩ else none := rfl

theorem hoistBdy_negInf (cx : Cx) (ty : Ty) :
    hoistPatRangeBdy cx .negInfinity ty = .negInfinity := rfl

theorem hoistBdy_posInf (cx : Cx) (ty : Ty) :
    hoistPatRangeBdy cx .posInfinity ty = .posInfinity := rfl

theorem range_round_trip (cx : Cx) (ty : Ty) (lo hi : PatRangeBoundary)
    (hsz : ty.primitiveSizeBits ≤ 128)
    (hc : CanonicalRange ty lo hi) :
    ∃ l h r, lowerPatRangeBdy cx lo ty = some l ∧
      lowerPatRangeBdy cx hi ty = some h ∧
      IntRange.fromRange l h .included = some r ∧
      hoistPatRange cx r ty = some (.mk ty (.range lo hi .included)) := by
  cases lo with
  | negInfinity =>
      cases hi with
      | negInfinity => exact absurd hc (by simp [CanonicalRange])
      | posInfinity => exact absurd hc (by simp [CanonicalRange])
      | finite v =>
          cases v with
          | strLit i => exact absurd hc (by simp [CanonicalRange])
          | unevaluable i => exact absurd hc (by simp [CanonicalRange])
          | scalar vb =>
              have hv : vb < 2 ^ ty.primitiveSizeBits := hc
              have hev : vb ^^^ MaybeInfiniteInt.signedBias ty < 2 ^ 128 :=
                enc_lt ty vb hsz hv
              refine ⟨.negInfinity, .finite (vb ^^^ MaybeInfiniteInt.signedBias ty),
                ⟨.negInfinity, finSucc (vb ^^^ MaybeInfiniteInt.signedBias ty)⟩,
                rfl, ?_, ?_, ?_⟩
              · simp [lowerPatRangeBdy, ConstValue.tryEvalBits, MaybeInfiniteInt.newFinite]
              · rw [fromRange_included, plusOne_finite]
                simp [blt_negInf_finSucc]
              · unfold hoistPatRange
                rw [if_neg (by simp [finSucc_beq_posInf])]
                rw [if_neg (by simp [singleton_negInf_finSucc])]
                simp only [hoistBdy_negInf, finSucc_beq_finZero, Bool.false_eq_true,
                  if_false, finSucc_minusOne _ hev, hoistBdy_decode cx ty vb hv]
  | posInfinity => exact absurd hc (by cases hi <;> simp [CanonicalRange])
  | finite u =>
      cases u with
      | strLit i => exact absurd hc (by cases hi <;> simp [CanonicalRange])
      | unevaluable i => exact absurd hc (by cases hi <;> simp [CanonicalRange])
      | scalar ub =>
          cases hi with
          | negInfinity => exact absurd hc (by simp [CanonicalRange])
          | posInfinity =>
              have hu : ub < 2 ^ ty.primitiveSizeBits := hc
              have heu : ub ^^^ MaybeInfiniteInt.signedBias ty < 2 ^ 128 :=
                enc_lt ty ub hsz hu
              refine ⟨.finite (ub ^^^ MaybeInfiniteInt.signedBias ty), .posInfinity,
                ⟨.finite (ub ^^^ MaybeInfiniteInt.signedBias ty), .posInfinity⟩,
                ?_, rfl, ?_, ?_⟩
              · simp [lowerPatRangeBdy, ConstValue.tryEvalBits, MaybeInfiniteInt.newFinite]
              · rfl
              · unfold hoistPatRange
                rw [if_neg (by simp)]
                rw [if_neg (by simp [singleton_finite_posInf])]
                simp only [hoistBdy_decode cx ty ub hu, hoistBdy_posInf]
                rfl
          | finite v =>
              cases v with
              | strLit i => exact absurd hc (by simp [CanonicalRange])
              | unevaluable i => exact absurd hc (by simp [CanonicalRange])
              | scalar vb =>
                  obtain ⟨hu, hv, hlt⟩ := hc
                  have heu : ub ^^^ MaybeInfiniteInt.signedBias ty < 2 ^ 128 :=
                    enc_lt ty ub hsz hu
                  have hev : vb ^^^ MaybeInfiniteInt.signedBias ty < 2 ^ 128 :=
                    enc_lt ty vb hsz hv
                  have hlt' : ub ^^^ MaybeInfiniteInt.signedBias ty <
                      vb ^^^ MaybeInfiniteInt.signedBias ty := by
                    simpa [MaybeInfiniteInt.blt, MaybeInfiniteInt.newFinite] using hlt
                  refine ⟨.finite (ub ^^^ MaybeInfiniteInt.signedBias ty),
                    .finite (vb ^^^ MaybeInfiniteInt.signedBias ty),
                    ⟨.finite (ub ^^^ MaybeInfiniteInt.signedBias ty),
                      finSucc (vb ^^^ MaybeInfiniteInt.signedBias ty)⟩,
                    ?_, ?_, ?_, ?_⟩
                  · simp [lowerPatRangeBdy, ConstValue.tryEvalBits,
                      MaybeInfiniteInt.newFinite]
                  · simp [lowerPatRangeBdy, ConstValue.tryEvalBits,
                      MaybeInfiniteInt.newFinite]
                  · rw [fromRange_included, plusOne_finite]
                    simp [blt_finite_finSucc _ _ (by omega : ub ^^^ MaybeInfiniteInt.signedBias ty ≤ vb ^^^ MaybeInfiniteInt.signedBias ty)]
                  · unfold hoistPatRange
                    rw [if_neg (by simp)]
                    rw [if_neg (by
                      simp [singleton_finite_finSucc _ _ (by omega : ub ^^^ MaybeInfiniteInt.signedBias ty ≠ vb ^^^ MaybeInfiniteInt.signedBias ty) heu hev])]
                    simp only [hoistBdy_decode cx ty ub hu, finSucc_beq_finZero,
                      Bool.false_eq_true, if_false, finSucc_minusOne _ hev,
                      hoistBdy_decode cx ty vb hv]

end RustcPatternAnalysis
namespace RustcPatternAnalysis

theorem filterMap_enumFrom_fst_props (fn : Nat × FieldDef → Option (Nat × Ty))
    (hfn : ∀ p r, fn p = some r → r.1 = p.1) :
    ∀ (flds : List FieldDef) (k : Nat),
      (((List.enumFrom k flds).filterMap fn).map Prod.fst).Pairwise (· < ·) ∧
      ∀ q ∈ (List.enumFrom k flds).filterMap fn, k ≤ q.1 ∧ q.1 < k + flds.length
  | [], k => by simp
  | fd :: rest, k => by
      obtain ⟨ih1, ih2⟩ := filterMap_enumFrom_fst_props fn hfn rest (k + 1)
      simp only [List.enumFrom, List.filterMap_cons]
      cases hf : fn (k, fd) with
      | none =>
          refine ⟨ih1, fun q hq => ?_⟩
          have := ih2 q hq
          simp only [List.length_cons]
          omega
      | some r =>
          have hr : r.1 = k := hfn _ _ hf
          constructor
          · simp only [List.map_cons, List.pairwise_cons]
            refine ⟨fun f hfm => ?_, ih1⟩
            simp only [List.mem_map] at hfm
            obtain ⟨q, hq, rfl⟩ := hfm
            have := ih2 q hq
            omega
          · intro q hq
            simp only [List.mem_cons] at hq
            rcases hq with rfl | hq
            · simp only [List.length_cons]; omega
            · have := ih2 q hq
              simp only [List.length_cons]
              omega

theorem listVariantNonhiddenFields_fst_props (cx : Cx) (a : AdtDef)
    (g : Option Ty) (v : VariantDef) (nh : List (Nat × Ty))
    (h : listVariantNonhiddenFields cx (.adt a g) v = some nh) :
    (nh.map Prod.fst).Pairwise (· < ·) ∧
      ∀ q ∈ nh, q.1 < v.fields.length := by
  simp only [listVariantNonhiddenFields, Option.some.injEq] at h
  subst h
  obtain ⟨h1, h2⟩ := filterMap_enumFrom_fst_props
    (fun p =>
      if (cx.featureExhaustivePatterns && cx.isUninhabited p.2.ty) &&
          (!(a.isEnum || p.2.visAccessible) ||
            (v.fieldListNonExhaustive && !a.isLocal)) then none
      else some (p.1, p.2.ty))
    (by
      intro p r hr
      simp only at hr
      split at hr
      · exact Option.noConfusion hr
      · injection hr with hr
        subst hr
        rfl)
    v.fields 0
  refine ⟨h1, fun q hq => ?_⟩
  have := h2 q hq
  omega

theorem foldl_set_preserve (x : Nat) :
    ∀ (l : List (Nat × (Nat × Ty))) (acc : List (Option Nat)),
      (∀ q ∈ l, q.2.1 ≠ x) →
      (l.foldl (fun m q => m.set q.2.1 (some q.1)) acc).get? x = acc.get? x
  | [], _, _ => rfl
  | q :: rest, acc, h => by
      simp only [List.foldl_cons]
      rw [foldl_set_preserve x rest _ (fun r hr => h r (List.mem_cons_of_mem _ hr))]
      rw [List.get?_set_ne _ _ (h q (List.mem_cons_self _ _))]

theorem enumFrom_snd_mem :
    ∀ (l : List (Nat × Ty)) (j : Nat) (r : Nat × (Nat × Ty)),
      r ∈ List.enumFrom j l → r.2 ∈ l
  | x :: xs, j, r, h => by
      simp only [List.enumFrom, List.mem_cons] at h
      rcases h with rfl | h
      · exact List.mem_cons_self _ _
      · exact List.mem_cons_of_mem _ (enumFrom_snd_mem xs (j + 1) r h)

theorem buildFieldMapping_step :
    ∀ (l : List (Nat × Ty)) (j : Nat) (acc : List (Option Nat)),
      (∀ q ∈ l, q.1 < acc.length) →
      ((l.map Prod.fst).Pairwise (· < ·)) →
      ∀ i p, l.get? i = some p →
        ((List.enumFrom j l).foldl (fun m q => m.set q.2.1 (some q.1)) acc).get? p.1 =
          some (some (j + i))
  | [], j, acc, _, _, i, p => by intro h; simp at h
  | q :: rest, j, acc, hlen, hpw, i, p => by
      intro hg
      simp only [List.enumFrom, List.foldl_cons]
      simp only [List.map_cons, List.pairwise_cons] at hpw
      obtain ⟨hhead, hpw'⟩ := hpw
      cases i with
      | zero =>
          injection hg with hg
          subst hg
          rw [foldl_set_preserve q.1 _ _ (by
            intro r hr
            have hm : r.2 ∈ rest := enumFrom_snd_mem rest (j + 1) r hr
            have := hhead r.2.1 (List.mem_map_of_mem Prod.fst hm)
            omega)]
          rw [List.get?_set_eq_of_lt _ (hlen q (List.mem_cons_self _ _))]
          simp
      | succ i' =>
          have : j + (i' + 1) = (j + 1) + i' := by omega
          rw [this]
          exact buildFieldMapping_step rest (j + 1) _
            (by
              intro r hr
              rw [List.length_set]
              exact hlen r (List.mem_cons_of_mem _ hr))
            hpw' i' p hg

end RustcPatternAnalysis
namespace RustcPatternAnalysis

theorem fieldPats_patsList_length :
    ∀ (fps : FieldPats), fps.patsList.length = fps.length
  | .nil => rfl
  | .cons _ _ ps => by
      simp only [FieldPats.patsList, List.length_cons, FieldPats.length,
        fieldPats_patsList_length ps]

theorem enumFieldPats_of_consec (cx : Cx) :
    ∀ (k : Nat) (fps : FieldPats), CanonicalFieldsConsec cx k fps →
      enumFieldPatsFrom k fps.patsList = fps
  | _, .nil, _ => rfl
  | k, .cons f q fps, h => by
      cases h with
      | cons a b c hq hrest =>
          show FieldPats.cons k q (enumFieldPatsFrom (k + 1) fps.patsList) = _
          rw [enumFieldPats_of_consec cx (k + 1) fps hrest]

theorem canonicalFieldsMatch_length (cx : Cx) :
    ∀ (nh : List (Nat × Ty)) (fps : FieldPats),
      CanonicalFieldsMatch cx nh fps → fps.length = nh.length
  | nh, .nil, h => by cases h; rfl
  | nh, .cons f q rest, h => by
      cases h
      rename_i hq hrest
      simp only [FieldPats.length, List.length_cons,
        canonicalFieldsMatch_length cx _ rest hrest]

theorem hoistWPats_cons_eq_some (cx : Cx) (p : WitnessPat) (ps : WPats)
    (l : List Pat) (h : hoistWPats cx (.cons p ps) = some l) :
    ∃ q qs, hoistWitnessPat cx p = some q ∧ hoistWPats cx ps = some qs ∧
      l = q :: qs := by
  simp only [hoistWPats] at h
  cases hd : hoistWitnessPat cx p with
  | none => rw [hd] at h; exact Option.noConfusion h
  | some q =>
      rw [hd] at h
      cases hr : hoistWPats cx ps with
      | none => rw [hr] at h; exact Option.noConfusion h
      | some qs =>
          rw [hr] at h
          injection h with h
          exact ⟨q, qs, rfl, rfl, h.symm⟩

theorem hoistZip_of_canonical (cx : Cx) :
    ∀ (nh : List (Nat × Ty)) (fps : FieldPats) (ds : List DeconstructedPat),
      CanonicalFieldsMatch cx nh fps →
      hoistWPats cx (DPats.ofList ds).toWitness = some fps.patsList →
      ds.length = fps.length →
      hoistZipFields cx nh (DPats.ofList ds).toWitness = some fps
  | _, .nil, ds, hm, hh, hl => by
      cases hm
      cases ds with
      | nil => rfl
      | cons d ds => simp [FieldPats.length] at hl
  | nh, .cons f q rest, ds, hm, hh, hl => by
      cases hm
      rename_i hq hrest
      cases ds with
      | nil => simp [FieldPats.length] at hl
      | cons d0 ds' =>
          rw [toWitness_ofList_cons] at hh
          obtain ⟨q0, qs0, hd, hr, heq⟩ := hoistWPats_cons_eq_some cx _ _ _ hh
          simp only [FieldPats.patsList] at heq
          injection heq with h1 h2
          show hoistZipFields cx _ (.cons d0.toWitness (DPats.ofList ds').toWitness) = _
          simp only [hoistZipFields, hd, h1]
          rw [hoistZip_of_canonical cx _ rest ds' hrest (by rw [hr, h2])
            (by simpa [FieldPats.length] using hl)]
end RustcPatternAnalysis
namespace RustcPatternAnalysis

theorem hoistWitnessPat_adt_nonbox (cx : Cx) (ctor : Constructor) (fields : WPats)
    (adtDef : AdtDef) (arg0 : Option Ty)
    (hctor : ctor = .single ∨ ∃ v, ctor = .variant v)
    (hbox : adtDef.isBox = false) :
    hoistWitnessPat cx (.mk ctor fields (.adt adtDef arg0)) =
      (match variantIndexForAdt ctor adtDef with
       | none => none
       | some vidx =>
           match adtDef.variants.get? vidx with
           | none => none
           | some variant =>
               match listVariantNonhiddenFields cx (.adt adtDef arg0) variant with
               | none => none
               | some nh =>
                   match hoistZipFields cx nh fields with
                   | none => none
                   | some subpatterns =>
                       some (.mk (.adt adtDef arg0) (if adtDef.isEnum
                         then .variant vidx subpatterns
                         else .leaf subpatterns))) := by
  rcases hctor with rfl | ⟨v, rfl⟩ <;>
    cases fields <;>
      simp only [hoistWitnessPat, hbox, Bool.false_eq_true, if_false]

mutual

theorem roundTripPat (cx : Cx) (p : Pat) (hc : CanonicalPat cx p) :
    ∀ n, ∃ d, lowerPat cx p n = some (d, n) ∧
      hoistWitnessPat cx d.toWitness = some p :=
  match hc with
  | .wild _ ty => fun _ => ⟨.mk .wildcard .nil ty, rfl, rfl⟩
  | .derefRef _ t sub hsub => fun n => by
      obtain ⟨dsub, hl, hh⟩ := roundTripPat cx sub hsub n
      refine ⟨.mk .single (.cons dsub .nil) (.ref t), ?_, ?_⟩
      · simp only [lowerPat, hl]
      · show hoistWitnessPat cx
          (.mk .single (.cons dsub.toWitness .nil) (.ref t)) = _
        simp only [hoistWitnessPat, hh]
  | .derefBox _ adtDef arg0 sub hbox hsub => fun n => by
      obtain ⟨dsub, hl, hh⟩ := roundTripPat cx sub hsub n
      refine ⟨.mk .single (.cons dsub .nil) (.adt adtDef arg0), ?_, ?_⟩
      · simp only [lowerPat, hl]
      · show hoistWitnessPat cx
          (.mk .single (.cons dsub.toWitness .nil) (.adt adtDef arg0)) = _
        simp only [hoistWitnessPat, hbox, if_true, hh]
  | .leafTuple _ fs fps hconsec hlen => fun n => by
      obtain ⟨ds, hl, hdslen, hh⟩ := roundTripFieldsConsec cx 0 fps hconsec
        (fs.map DeconstructedPat.wildcard) n (by simp [hlen])
      refine ⟨.mk .single (DPats.ofList ds) (.tuple fs), ?_, ?_⟩
      · simp only [lowerPat, hl, List.take_zero, List.nil_append]
      · show hoistWitnessPat cx
          (.mk .single (DPats.ofList ds).toWitness (.tuple fs)) = _
        simp only [hoistWitnessPat, hh]
        rw [enumFieldPats_of_consec cx 0 fps hconsec]
  | .leafAdt _ adtDef arg0 variant nh fps hbox henum hv hnh hmatch => fun n => by
      obtain ⟨hpw, hbound⟩ :=
        listVariantNonhiddenFields_fst_props cx adtDef arg0 variant nh hnh
      have hmap : ∀ i q, nh.get? i = some q →
          (buildFieldMapping variant.fields.length nh).get? q.1 = some (some i) := by
        intro i q hiq
        have hstep := buildFieldMapping_step nh 0
          (List.replicate variant.fields.length none)
          (by intro r hr; rw [List.length_replicate]; exact hbound r hr)
          hpw i q hiq
        simpa [buildFieldMapping, List.enum] using hstep
      obtain ⟨ds, hl, hdslen, hh⟩ := roundTripFieldsMatch cx nh fps hmatch nh 0
        (buildFieldMapping variant.fields.length nh)
        (nh.map fun q => DeconstructedPat.wildcard q.2) n rfl
        (by rw [List.length_map]) hmap
      refine ⟨.mk .single (DPats.ofList ds) (.adt adtDef arg0), ?_, ?_⟩
      · simp only [lowerPat, hbox, Bool.false_eq_true, if_false,
          variantIndexForAdt, henum, hv, hnh, hl, List.take_zero, List.nil_append]
      · show hoistWitnessPat cx
          (.mk .single (DPats.ofList ds).toWitness (.adt adtDef arg0)) = _
        rw [hoistWitnessPat_adt_nonbox cx .single (DPats.ofList ds).toWitness
          adtDef arg0 (Or.inl rfl) hbox]
        simp only [variantIndexForAdt, henum, Bool.false_eq_true, if_false, hv, hnh,
          hoistZip_of_canonical cx nh fps ds hmatch hh
            (by rw [hdslen, canonicalFieldsMatch_length cx nh fps hmatch])]
  | .variantAdt _ adtDef arg0 vidx variant nh fps hbox henum hv hnh hmatch => fun n => by
      obtain ⟨hpw, hbound⟩ :=
        listVariantNonhiddenFields_fst_props cx adtDef arg0 variant nh hnh
      have hmap : ∀ i q, nh.get? i = some q →
          (buildFieldMapping variant.fields.length nh).get? q.1 = some (some i) := by
        intro i q hiq
        have hstep := buildFieldMapping_step nh 0
          (List.replicate variant.fields.length none)
          (by intro r hr; rw [List.length_replicate]; exact hbound r hr)
          hpw i q hiq
        simpa [buildFieldMapping, List.enum] using hstep
      obtain ⟨ds, hl, hdslen, hh⟩ := roundTripFieldsMatch cx nh fps hmatch nh 0
        (buildFieldMapping variant.fields.length nh)
        (nh.map fun q => DeconstructedPat.wildcard q.2) n rfl
        (by rw [List.length_map]) hmap
      refine ⟨.mk (.variant vidx) (DPats.ofList ds) (.adt adtDef arg0), ?_, ?_⟩
      · simp only [lowerPat, hbox, Bool.false_eq_true, if_false,
          variantIndexForAdt, hv, hnh, hl, List.take_zero, List.nil_append]
      · show hoistWitnessPat cx
          (.mk (.variant vidx) (DPats.ofList ds).toWitness (.adt adtDef arg0)) = _
        rw [hoistWitnessPat_adt_nonbox cx (.variant vidx) (DPats.ofList ds).toWitness
          adtDef arg0 (Or.inr ⟨vidx, rfl⟩) hbox]
        simp only [variantIndexForAdt, henum, eq_self_iff_true, if_true, hv, hnh,
          hoistZip_of_canonical cx nh fps ds hmatch hh
            (by rw [hdslen, canonicalFieldsMatch_length cx nh fps hmatch])]
  | .constBool _ bits hb => fun n => by
      rcases hb with rfl | rfl
      · exact ⟨.mk (.bool false) .nil .bool, rfl, rfl⟩
      · exact ⟨.mk (.bool true) .nil .bool, rfl, rfl⟩
  | .constInt _ ty bits hint hfit => fun n => by
      refine ⟨.mk (.intRange (IntRange.fromBits ty bits)) .nil ty, ?_, ?_⟩
      · cases ty <;> first
          | rfl
          | (simp [Ty.isIntLike] at hint)
      · show hoistWitnessPat cx
          (.mk (.intRange (IntRange.fromBits ty bits)) WPats.nil ty) = _
        simp only [hoistWitnessPat]
        exact hoistPatRange_fromBits cx ty bits hfit
  | .rangePat _ ty lo hi hint hsz hcr => fun n => by
      obtain ⟨l, h, r, hlo, hhi, hfr, hhoist⟩ := range_round_trip cx ty lo hi hsz hcr
      refine ⟨.mk (.intRange r) .nil ty, ?_, ?_⟩
      · cases ty <;> simp only [Ty.isIntLike, Bool.false_eq_true] at hint <;>
          simp only [lowerPat, hlo, hhi, hfr]
      · show hoistWitnessPat cx (.mk (.intRange r) WPats.nil ty) = _
        simp only [hoistWitnessPat]
        exact hhoist
  | .sliceFixed _ elemTy pre hpre => fun n => by
      obtain ⟨ds, hl, hh⟩ := roundTripPats cx pre hpre n
      refine ⟨.mk (.slice ⟨none, .fixedLen (pre.length + Pats.length .nil)⟩)
        (DPats.ofList (ds ++ [])) (.slice elemTy), ?_, ?_⟩
      · simp only [lowerPat, RestPat.isSome, Bool.false_eq_true, if_false,
          Slice.new, hl, lowerPats]
      · show hoistWitnessPat cx
          (.mk (.slice ⟨none, .fixedLen (pre.length + Pats.length .nil)⟩)
            (DPats.ofList (ds ++ [])).toWitness (.slice elemTy)) = _
        rw [List.append_nil]
        simp only [hoistWitnessPat, hh]
        rw [pats_ofList_toList]
  | .sliceVar _ elemTy pre suf hpre hsuf => fun n => by
      obtain ⟨ds1, hl1, hh1⟩ := roundTripPats cx pre hpre n
      obtain ⟨ds2, hl2, hh2⟩ := roundTripPats cx suf hsuf n
      refine ⟨.mk (.slice ⟨none, .varLen pre.length (Pats.length suf)⟩)
        (DPats.ofList (ds1 ++ ds2)) (.slice elemTy), ?_, ?_⟩
      · simp only [lowerPat, RestPat.isSome, eq_self_iff_true, if_true,
          Slice.new, hl1, hl2]
      · show hoistWitnessPat cx
          (.mk (.slice ⟨none, .varLen pre.length (Pats.length suf)⟩)
            (DPats.ofList (ds1 ++ ds2)).toWitness (.slice elemTy)) = _
        have happ : hoistWPats cx (DPats.ofList (ds1 ++ ds2)).toWitness =
            some (pre.toList ++ suf.toList) := by
          rw [hoistWPats_ofList_append cx ds1 ds2, hh1, hh2]
        simp only [hoistWitnessPat, happ, Option.isSome_none, Bool.false_eq_true,
          if_false]
        rw [← pats_length_toList pre, List.take_left, List.drop_left,
          pats_ofList_toList, pats_ofList_toList]
        rfl
  | .arrayFixed _ elemTy len pre hpre => fun n => by
      obtain ⟨ds, hl, hh⟩ := roundTripPats cx pre hpre n
      refine ⟨.mk (.slice ⟨some len, .fixedLen (pre.length + Pats.length .nil)⟩)
        (DPats.ofList (ds ++ [])) (.array elemTy (some len)), ?_, ?_⟩
      · simp only [lowerPat, RestPat.isSome, Bool.false_eq_true, if_false,
          Slice.new, hl, lowerPats]
      · show hoistWitnessPat cx
          (.mk (.slice ⟨some len, .fixedLen (pre.length + Pats.length .nil)⟩)
            (DPats.ofList (ds ++ [])).toWitness (.array elemTy (some len))) = _
        rw [List.append_nil]
        simp only [hoistWitnessPat, hh]
        rw [pats_ofList_toList]
  | .arrayVar _ elemTy len pre suf hpre hsuf hnt hnl => fun n => by
      obtain ⟨ds1, hl1, hh1⟩ := roundTripPats cx pre hpre n
      obtain ⟨ds2, hl2, hh2⟩ := roundTripPats cx suf hsuf n
      refine ⟨.mk (.slice ⟨some len, .varLen pre.length (Pats.length suf)⟩)
        (DPats.ofList (ds1 ++ ds2)) (.array elemTy (some len)), ?_, ?_⟩
      · simp only [lowerPat, RestPat.isSome, eq_self_iff_true, if_true,
          Slice.new, hl1, hl2]
      · show hoistWitnessPat cx
          (.mk (.slice ⟨some len, .varLen pre.length (Pats.length suf)⟩)
            (DPats.ofList (ds1 ++ ds2)).toWitness (.array elemTy (some len))) = _
        have happ : hoistWPats cx (DPats.ofList (ds1 ++ ds2)).toWitness =
            some (pre.toList ++ suf.toList) := by
          rw [hoistWPats_ofList_append cx ds1 ds2, hh1, hh2]
        simp only [hoistWitnessPat, happ, Option.isSome_some, eq_self_iff_true,
          if_true]
        rw [← pats_length_toList pre, List.take_left, List.drop_left,
          dropTrailingWilds_eq_self hnt, dropWhile_head_false hnl,
          pats_ofList_toList, pats_ofList_toList]
        rfl

theorem roundTripPats (cx : Cx) (ps : Pats) (hc : CanonicalPats cx ps) :
    ∀ n, ∃ ds, lowerPats cx ps n = some (ds, n) ∧
      hoistWPats cx (DPats.ofList ds).toWitness = some ps.toList :=
  match hc with
  | .nil _ => fun _ => ⟨[], rfl, rfl⟩
  | .cons _ p ps hp hps => fun n => by
      obtain ⟨d, hl, hh⟩ := roundTripPat cx p hp n
      obtain ⟨ds, hls, hhs⟩ := roundTripPats cx ps hps n
      refine ⟨d :: ds, ?_, ?_⟩
      · simp only [lowerPats, hl, hls]
      · rw [toWitness_ofList_cons]
        simp only [hoistWPats, hh, hhs, Pats.toList]

theorem roundTripFieldsConsec (cx : Cx) (k : Nat) (fps : FieldPats)
    (hc : CanonicalFieldsConsec cx k fps) :
    ∀ (wilds : List DeconstructedPat) (n : Nat),
      wilds.length = k + fps.length →
      ∃ ds, lowerLeafFields cx fps wilds n = some (wilds.take k ++ ds, n) ∧
        ds.length = fps.length ∧
        hoistWPats cx (DPats.ofList ds).toWitness = some fps.patsList :=
  match hc with
  | .nil _ k => fun wilds n hlen => by
      refine ⟨[], ?_, rfl, rfl⟩
      show some (wilds, n) = _
      rw [List.take_of_length_le (by simp [FieldPats.length] at hlen; omega),
        List.append_nil]
  | .cons _ k q fps hq hfps => fun wilds n hlen => by
      obtain ⟨dq, hlq, hhq⟩ := roundTripPat cx q hq n
      have hk : k < wilds.length := by simp [FieldPats.length] at hlen; omega
      obtain ⟨ds, hl, hdslen, hh⟩ := roundTripFieldsConsec cx (k + 1) fps hfps
        (wilds.set k dq) n
        (by rw [List.length_set]; simp [FieldPats.length] at hlen ⊢; omega)
      refine ⟨dq :: ds, ?_, ?_, ?_⟩
      · simp only [lowerLeafFields, hk, if_true, hlq, hl,
          take_set_append dq wilds k hk]
        simp [List.append_assoc]
      · simp [FieldPats.length, hdslen]
      · rw [toWitness_ofList_cons]
        simp only [hoistWPats, hhq, hh, FieldPats.patsList]

theorem roundTripFieldsMatch (cx : Cx) (nh : List (Nat × Ty)) (fps : FieldPats)
    (hc : CanonicalFieldsMatch cx nh fps) :
    ∀ (nh0 : List (Nat × Ty)) (j : Nat) (mapping : List (Option Nat))
      (wilds : List DeconstructedPat) (n : Nat),
      nh0.drop j = nh →
      wilds.length = nh0.length →
      (∀ i q, nh0.get? i = some q → mapping.get? q.1 = some (some i)) →
      ∃ ds, lowerAdtFields cx fps mapping wilds n = some (wilds.take j ++ ds, n) ∧
        ds.length = fps.length ∧
        hoistWPats cx (DPats.ofList ds).toWitness = some fps.patsList :=
  match hc with
  | .nil _ => fun nh0 j mapping wilds n hdrop hwlen hmap => by
      refine ⟨[], ?_, rfl, rfl⟩
      show some (wilds, n) = _
      have hle : nh0.length ≤ j := List.drop_eq_nil_iff_le.mp hdrop
      rw [List.take_of_length_le (by omega), List.append_nil]
  | .cons _ f fty nh q fps hq hfps => fun nh0 j mapping wilds n hdrop hwlen hmap => by
      obtain ⟨dq, hlq, hhq⟩ := roundTripPat cx q hq n
      have hj : j < nh0.length := by
        by_contra hge
        rw [List.drop_eq_nil_iff_le.mpr (by omega)] at hdrop
        exact List.noConfusion hdrop
      have hget : nh0.get? j = some (f, fty) := by
        have h0 := List.get?_drop nh0 j 0
        rw [hdrop] at h0
        simpa using h0.symm
      have hdrop' : nh0.drop (j + 1) = nh := by
        have hdd := List.drop_drop 1 j nh0
        rw [hdrop] at hdd
        rw [← hdd]
        rfl
      obtain ⟨ds, hl, hdslen, hh⟩ := roundTripFieldsMatch cx nh fps hfps nh0 (j + 1)
        mapping (wilds.set j dq) n hdrop'
        (by rw [List.length_set]; exact hwlen) hmap
      refine ⟨dq :: ds, ?_, ?_, ?_⟩
      · have hmapf : mapping.get? f = some (some j) := hmap j (f, fty) hget
        simp only [lowerAdtFields, hmapf, hlq, hl,
          take_set_append dq wilds j (by omega)]
        simp [List.append_assoc]
      · simp [FieldPats.length, hdslen]
      · rw [toWitness_ofList_cons]
        simp only [hoistWPats, hhq, hh, FieldPats.patsList]

end

end RustcPatternAnalysis
namespace RustcPatternAnalysis

/-- C4 (amended): on the canonical fragment of surface patterns —
wildcards, deref patterns, fully-spelled-out tuple/ADT patterns,
evaluable in-range boolean/integer/char scalar constants, inclusive
canonical integer ranges, and slice/array patterns in hoisted shape —
`lower_pat` succeeds (without consuming opaque ids) and
`hoist_witness_pat` on the witness form of the lowered pattern returns
exactly the original pattern: lowering followed by hoisting is the
syntactic identity there. -/
theorem c4_canonical_round_trip (cx : Cx) (p : Pat) (n : Nat)
    (hc : CanonicalPat cx p) :
    ∃ d, lowerPat cx p n = some (d, n) ∧
      hoistWitnessPat cx d.toWitness = some p :=
  roundTripPat cx p hc n

theorem c4_canonical_round_trip_witness :
    CanonicalPat cxDefault
      (Pat.mk (Ty.tuple [Ty.bool, Ty.uint false 8])
        (PatKind.leaf (FieldPats.cons 0
          (Pat.mk Ty.bool (PatKind.constant (ConstValue.scalar 1)))
          (FieldPats.cons 1 (Pat.mk (Ty.uint false 8) PatKind.wild)
            FieldPats.nil)))) ∧
    ∃ d, lowerPat cxDefault
        (Pat.mk (Ty.tuple [Ty.bool, Ty.uint false 8])
          (PatKind.leaf (FieldPats.cons 0
            (Pat.mk Ty.bool (PatKind.constant (ConstValue.scalar 1)))
            (FieldPats.cons 1 (Pat.mk (Ty.uint false 8) PatKind.wild)
              FieldPats.nil)))) 0 = some (d, 0) ∧
      hoistWitnessPat cxDefault d.toWitness =
        some (Pat.mk (Ty.tuple [Ty.bool, Ty.uint false 8])
          (PatKind.leaf (FieldPats.cons 0
            (Pat.mk Ty.bool (PatKind.constant (ConstValue.scalar 1)))
            (FieldPats.cons 1 (Pat.mk (Ty.uint false 8) PatKind.wild)
              FieldPats.nil)))) := by
  have hc : CanonicalPat cxDefault
      (Pat.mk (Ty.tuple [Ty.bool, Ty.uint false 8])
        (PatKind.leaf (FieldPats.cons 0
          (Pat.mk Ty.bool (PatKind.constant (ConstValue.scalar 1)))
          (FieldPats.cons 1 (Pat.mk (Ty.uint false 8) PatKind.wild)
            FieldPats.nil)))) :=
    CanonicalPat.leafTuple cxDefault [Ty.bool, Ty.uint false 8]
      (FieldPats.cons 0 (Pat.mk Ty.bool (PatKind.constant (ConstValue.scalar 1)))
        (FieldPats.cons 1 (Pat.mk (Ty.uint false 8) PatKind.wild) FieldPats.nil))
      (CanonicalFieldsConsec.cons cxDefault 0
        (Pat.mk Ty.bool (PatKind.constant (ConstValue.scalar 1)))
        (FieldPats.cons 1 (Pat.mk (Ty.uint false 8) PatKind.wild) FieldPats.nil)
        (CanonicalPat.constBool cxDefault 1 (Or.inr rfl))
        (CanonicalFieldsConsec.cons cxDefault 1
          (Pat.mk (Ty.uint false 8) PatKind.wild) FieldPats.nil
          (CanonicalPat.wild cxDefault (Ty.uint false 8))
          (CanonicalFieldsConsec.nil cxDefault 2)))
      rfl
  exact ⟨hc, c4_canonical_round_trip cxDefault _ 0 hc⟩

end RustcPatternAnalysis
